import Mathlib

/-!
Verification development for the solo-toon manga aggregation core.

The definitions below are a shallow embedding of the TypeScript source:
* `src/unnamed/part_002` — title normalization, Jaro–Winkler similarity,
  `calculateSimilarity`, `providerResultToManga`, `getProviderPriority`,
  `dedupeAndMerge`, and the `LRUCache` class;
* `src/src/lib/manga/http.ts` — `fetchJson` retry behaviour;
* `src/src/lib/manga/api.ts` — global-id parsing, the search cache key,
  chapter conversion and page-index assignment.

Modelling conventions:
* JavaScript numbers are modelled as exact rationals (`ℚ`); the code never
  relies on float rounding for the properties considered here.
* JavaScript falsiness of `""`, `0`, `undefined` is made explicit through
  the `jsOr…` helpers.
* `Array.prototype.sort` is modelled as a stable sort (ECMAScript requires
  stability; for a consistent comparator every stable sort produces the
  same list, so an insertion sort is used).
* Fields whose runtime validation (zod) cannot fail on well-typed values
  are modelled directly on the typed shape.
-/

/-- JS `a || b` for an optional string operand: `undefined` and `""` are
falsy, any other string is returned unchanged. -/
def jsOrStr : Option String → String → String
  | some s, d => if s = "" then d else s
  | none, d => d

/-- JS `a || b` where both sides are optional strings (e.g.
`result.description || duplicate.synopsis`). -/
def jsOrOptStr : Option String → Option String → Option String
  | some s, d => if s = "" then d else some s
  | none, d => d

/-- JS `a || b` where both sides are optional numbers (e.g.
`result.rating || duplicate.score`): `undefined` and `0` are falsy. -/
def jsOrOptNum : Option ℚ → Option ℚ → Option ℚ
  | some q, d => if q = 0 then d else some q
  | none, d => d

/-- JS `a || b` where `a` is an optional number and `b` a number
(`page.page || index`): `undefined` and `0` are falsy. -/
def jsOrNum : Option ℚ → ℚ → ℚ
  | some q, d => if q = 0 then d else q
  | none, d => d

/-- ASCII word character, the `\w` class of the JS regex used in
`normalizeTitle` (`[A-Za-z0-9_]`). -/
def isWordChar (c : Char) : Bool :=
  ('a' ≤ c && c ≤ 'z') || ('A' ≤ c && c ≤ 'Z') || ('0' ≤ c && c ≤ '9') || c = '_'

/-- Whitespace for the `\s` class of the regexes in `normalizeTitle`,
modelled on the ASCII whitespace characters (the Unicode additions of JS
`\s` play no role for the inputs considered here). -/
def isSpaceChar (c : Char) : Bool :=
  c = ' ' || c = '\t' || c = '\n' || c = '\r'

/-- State for `.replace(/\s+/g, ' ')`: emit a single space at the first
whitespace character of a run and skip the rest. -/
def collapseWsAux : Bool → List Char → List Char
  | _, [] => []
  | prevSpace, c :: t =>
    if isSpaceChar c then
      if prevSpace then collapseWsAux true t
      else ' ' :: collapseWsAux true t
    else c :: collapseWsAux false t

/-- `.replace(/\s+/g, ' ')`: collapse every run of whitespace to a single
space. -/
def collapseWs (l : List Char) : List Char :=
  collapseWsAux false l

/-- `.trim()`: strip leading and trailing whitespace. -/
def trimChars (l : List Char) : List Char :=
  ((l.dropWhile (isSpaceChar ·)).reverse.dropWhile (isSpaceChar ·)).reverse

/-- `normalizeTitle` from part_002: lower-case, drop every character that is
neither a word character nor whitespace, collapse whitespace runs, trim. -/
def normalizeTitle (title : String) : String :=
  String.mk (trimChars (collapseWs
    ((title.data.map Char.toLower).filter fun c => isWordChar c || isSpaceChar c)))

/-- `matchDistance` of `jaroWinkler`: `Math.floor(max(len1,len2)/2) - 1`
(an integer, possibly `-1` for very short strings). -/
def matchDistance (len1 len2 : ℕ) : ℤ :=
  (max len1 len2 : ℤ) / 2 - 1

/-- The inner `for j` loop of the match-finding phase: the first index `j`
in `[lo, hi)` with `s2Matches[j]` unset and `s1[i] = s2[j]`. -/
def findJ (s2 : List Char) (s2M : List Bool) (c : Char) (lo hi : ℕ) : Option ℕ :=
  (List.range' lo (hi - lo)).find? fun j => s2M.get? j == some false && s2.get? j == some c

/-- The outer `for i` loop of the match-finding phase of `jaroWinkler`:
walks `s1` with index `i`, updating the `s2Matches` array and recording the
`s1Matches` flags; returns `(s1Matches, s2Matches)`. -/
def jwFold (s2 : List Char) (d : ℤ) : List Char → ℕ → List Bool → List Bool × List Bool
  | [], _, s2M => ([], s2M)
  | c :: rest, i, s2M =>
    let lo : ℕ := (max 0 ((i : ℤ) - d)).toNat
    let hi : ℕ := (min ((i : ℤ) + d + 1) (s2.length : ℤ)).toNat
    match findJ s2 s2M c lo hi with
    | some j =>
      let out := jwFold s2 d rest (i + 1) (s2M.set j true)
      (true :: out.1, out.2)
    | none =>
      let out := jwFold s2 d rest (i + 1) s2M
      (false :: out.1, out.2)

/-- The `while (!s2Matches[k]) k++` scan of the transposition loop: drop
the unmatched entries at the front of `s2`. -/
def dropUnmatched : List (Char × Bool) → List (Char × Bool)
  | [] => []
  | (c, true) :: t => (c, true) :: t
  | (_, false) :: t => dropUnmatched t

/-- The transposition-counting loop of `jaroWinkler`, walking the matched
positions of `s1` and `s2` in parallel. -/
def countTrans : List (Char × Bool) → List (Char × Bool) → ℕ
  | [], _ => 0
  | (_, false) :: t1, l2 => countTrans t1 l2
  | (c, true) :: t1, l2 =>
    match dropUnmatched l2 with
    | [] => 0
    | (c2, _) :: r2 => (if c = c2 then 0 else 1) + countTrans t1 r2

/-- The Winkler shared-leading-characters count, capped at 4
(`for i < Math.min(len1, len2, 4)`). -/
def sharedLead : List Char → List Char → ℕ → ℕ
  | a :: as, b :: bs, k + 1 => if a = b then 1 + sharedLead as bs k else 0
  | _, _, _ => 0

/-- `jaroWinkler` from part_002 on character lists. -/
def jaroWinklerL (s1 s2 : List Char) : ℚ :=
  if s1 = s2 then 1
  else
    let len1 := s1.length
    let len2 := s2.length
    if len1 = 0 ∨ len2 = 0 then 0
    else
      let d := matchDistance len1 len2
      let ms := jwFold s2 d s1 0 (List.replicate len2 false)
      let m := ms.1.count true
      if m = 0 then 0
      else
        let t := countTrans (s1.zip ms.1) (s2.zip ms.2)
        let jaro := ((m : ℚ) / len1 + (m : ℚ) / len2 + ((m : ℚ) - (t : ℚ) / 2) / m) / 3
        let p := sharedLead s1 s2 4
        jaro + (1 / 10) * p * (1 - jaro)

/-- `jaroWinkler` on strings. -/
def jaroWinkler (s1 s2 : String) : ℚ :=
  jaroWinklerL s1.data s2.data

/-- `ProviderSearchResult` (schema part_001); the `string | {name}` unions
of `genres`/`authors` are modelled by the projected name, which is how every
consumer immediately uses them. -/
structure ProviderSearchResult where
  id : String
  title : String
  image : Option String := none
  description : Option String := none
  status : Option String := none
  chapters : Option ℚ := none
  volumes : Option ℚ := none
  rating : Option ℚ := none
  genres : Option (List String) := none
  authors : Option (List String) := none
  releaseDate : Option String := none
  url : Option String := none
deriving DecidableEq

/-- `Source` provenance record `{provider, id, priority}`. -/
structure Source where
  provider : String
  id : String
  priority : ℤ
deriving DecidableEq

/-- The normalized `Manga` domain entity (schema part_001) as built and
mutated by the merge engine; `sources` is optional in the schema but always
present on every entity the engine constructs (`sources || []` in the
merge step is the identity here). -/
structure Manga where
  id : String
  title : String
  cover : String
  status : String
  score : Option ℚ
  synopsis : Option String
  tags : List String
  authors : List String
  year : Option ℤ
  provider : String
  providerId : String
  chapters : Option ℚ
  volumes : Option ℚ
  sources : List Source
deriving DecidableEq

/-- Model of `new Date(s).getFullYear()` for the ISO `YYYY-…` strings this
code produces and consumes: the leading decimal-digit run; `none` stands
for the `NaN` year of an invalid date. -/
def jsDateYear (s : String) : Option ℤ :=
  let digits := s.data.takeWhile (·.isDigit)
  if digits = [] then none
  else some (digits.foldl (fun acc c => acc * 10 + (c.toNat - '0'.toNat : ℤ)) 0)

/-- `getProviderPriority` from part_002, with its priority table verbatim:
note the table's first key is spelled `'mangadx'` in the source while the
MangaDex adapter's id is `'mangadex'`. -/
def getProviderPriority (provider : String) : ℤ :=
  if provider = "mangadx" then 100
  else if provider = "comick" then 90
  else if provider = "mangasee123" then 80
  else if provider = "mangakakalot" then 70
  else if provider = "mangapark" then 60
  else 0

/-- The adapter-declared priority of each provider class in
`consumet.ts` (`MangaDexProvider.priority = 100`, …). -/
def adapterPriority (provider : String) : ℤ :=
  if provider = "mangadex" then 100
  else if provider = "comick" then 90
  else if provider = "mangasee123" then 80
  else if provider = "mangakakalot" then 70
  else if provider = "mangapark" then 60
  else 0

/-- `providerResultToManga` from part_002. -/
def providerResultToManga (result : ProviderSearchResult) (provider : String) : Manga where
  id := provider ++ ":" ++ result.id
  title := result.title
  cover := jsOrStr result.image "/placeholder.svg"
  status := jsOrStr result.status "Unknown"
  score := result.rating
  synopsis := result.description
  tags := result.genres.getD []
  authors := result.authors.getD []
  year :=
    match result.releaseDate with
    | some d => if d = "" then none else jsDateYear d
    | none => none
  provider := provider
  providerId := result.id
  chapters := result.chapters
  volumes := result.volumes
  sources := [⟨provider, result.id, getProviderPriority provider⟩]

/-- `.join(' ').toLowerCase()` applied to an author-name list. -/
def joinAuthors (l : List String) : String :=
  (String.intercalate " " l).map Char.toLower

/-- `calculateSimilarity` from part_002: Jaro–Winkler on normalized titles,
an optional author boost (`max(title, 0.8·author)`), an optional `+0.1`
year bonus, clamped to 1. -/
def calculateSimilarity (manga1 manga2 : ProviderSearchResult) : ℚ :=
  let titleSim := jaroWinkler (normalizeTitle manga1.title) (normalizeTitle manga2.title)
  let boosted :=
    match manga1.authors, manga2.authors with
    | some a1, some a2 =>
      let authors1 := joinAuthors a1
      let authors2 := joinAuthors a2
      if authors1 ≠ "" ∧ authors2 ≠ "" then
        max titleSim (jaroWinkler authors1 authors2 * (8 / 10))
      else titleSim
    | _, _ => titleSim
  let withYear :=
    match manga1.releaseDate, manga2.releaseDate with
    | some d1, some d2 =>
      if d1 ≠ "" ∧ d2 ≠ "" then
        match jsDateYear d1, jsDateYear d2 with
        | some y1, some y2 => if (y1 - y2).natAbs ≤ 1 then boosted + 1 / 10 else boosted
        | _, _ => boosted
      else boosted
    | _, _ => boosted
  min withYear 1

/-- The similarity threshold of `dedupeAndMerge` (`0.85`). -/
def threshold : ℚ := 17 / 20

/-- The `ProviderSearchResult` view of an accumulated entity that
`dedupeAndMerge` passes to `calculateSimilarity` (only id, title, authors
and a synthesized `year-01-01` release date are populated; a falsy —
absent or `0` — year yields no release date). -/
def mangaAsSearchResult (existing : Manga) : ProviderSearchResult where
  id := existing.providerId
  title := existing.title
  authors := some existing.authors
  releaseDate :=
    match existing.year with
    | some y => if y = 0 then none else some (toString y ++ "-01-01")
    | none => none

/-- The duplicate-search loop of `dedupeAndMerge`: track the best index
with similarity strictly above the running maximum and at least the
threshold. -/
def bestMatch (result : ProviderSearchResult) :
    List Manga → ℕ → ℚ → Option ℕ → Option ℕ
  | [], _, _, best => best
  | existing :: rest, i, maxSim, best =>
    let s := calculateSimilarity result (mangaAsSearchResult existing)
    if maxSim < s ∧ threshold ≤ s then bestMatch result rest (i + 1) s (some i)
    else bestMatch result rest (i + 1) maxSim best

/-- A generic stable insertion step: the new element `a` goes after every
leading element `b` with `le b a` (i.e. with comparator result
`cmp(b, a) ≤ 0`). -/
def insertLe (le : α → α → Bool) (a : α) : List α → List α
  | [] => [a]
  | b :: t => if le b a then b :: insertLe le a t else a :: b :: t

/-- Stable insertion sort; for a consistent comparator this is the unique
stable sort and hence the result of ECMAScript `Array.prototype.sort`. -/
def sortLe (le : α → α → Bool) (l : List α) : List α :=
  l.foldl (fun acc a => insertLe le a acc) []

/-- The source-list comparator `(a, b) => b.priority - a.priority` as a
"≤ 0" test: `b.priority - a.priority ≤ 0`, i.e. descending priority. -/
def sourceCmpLe (a b : Source) : Bool :=
  decide (b.priority ≤ a.priority)

/-- `sources.sort((a, b) => b.priority - a.priority)`: the stable
descending-priority sort. -/
def sortSourcesDesc (l : List Source) : List Source :=
  sortLe sourceCmpLe l

/-- The merge branch of `dedupeAndMerge`: append the new source, promote
the representative fields if the new provider's priority is strictly
higher (never overwriting with a falsy value), and re-sort the source
list by descending priority. -/
def mergeStep (provider : String) (result : ProviderSearchResult) (duplicate : Manga) : Manga :=
  let newSource : Source := ⟨provider, result.id, getProviderPriority provider⟩
  let srcs := duplicate.sources ++ [newSource]
  let currentPriority := getProviderPriority duplicate.provider
  let newPriority := getProviderPriority provider
  let promoted :=
    if currentPriority < newPriority then
      { duplicate with
        provider := provider
        providerId := result.id
        cover := jsOrStr result.image duplicate.cover
        synopsis := jsOrOptStr result.description duplicate.synopsis
        score := jsOrOptNum result.rating duplicate.score
        chapters := jsOrOptNum result.chapters duplicate.chapters
        volumes := jsOrOptNum result.volumes duplicate.volumes }
    else duplicate
  { promoted with sources := sortSourcesDesc srcs }

/-- Replace the element at index `i` (in-place mutation of the matched
`duplicate` in the accumulated list). -/
def updateAt : List α → ℕ → (α → α) → List α
  | [], _, _ => []
  | a :: t, 0, f => f a :: t
  | a :: t, n + 1, f => a :: updateAt t n f

/-- Processing of one provider record inside `dedupeAndMerge`: merge into
the best duplicate above threshold, or append as a new entity. -/
def dedupeRecord (all : List Manga) (provider : String) (result : ProviderSearchResult) :
    List Manga :=
  match bestMatch result all 0 0 none with
  | some i => updateAt all i (mergeStep provider result)
  | none => all ++ [providerResultToManga result provider]

/-- One `{data, provider}` group of fan-out results. -/
structure ProviderBatch where
  data : List ProviderSearchResult
  provider : String
deriving DecidableEq

/-- `dedupeAndMerge` from part_002: fold every record of every group into
the accumulated canonical list. -/
def dedupeAndMerge (results : List ProviderBatch) : List Manga :=
  results.foldl (fun all g => g.data.foldl (fun acc r => dedupeRecord acc g.provider r) all) []

/-! ### LRUCache (part_002)

The backing JS `Map` is modelled as an association list in insertion
order, oldest entry first; `delete` followed by `set` moves an entry to
the end, and `keys().next().value` is the head of the list. -/

/-- `Map.prototype.get`: the value stored at the first (only) entry with
the given key. -/
def mapGet [DecidableEq K] : List (K × V) → K → Option V
  | [], _ => none
  | (k, v) :: t, key => if k = key then some v else mapGet t key

/-- `Map.prototype.delete`: remove the entry with the given key (a no-op
when absent). -/
def mapDelete [DecidableEq K] : List (K × V) → K → List (K × V)
  | [], _ => []
  | (k, v) :: t, key => if k = key then t else (k, v) :: mapDelete t key

/-- The `LRUCache` class of part_002. -/
structure LRUCache (K V : Type) where
  cache : List (K × V)
  maxSize : ℕ
deriving DecidableEq

/-- A freshly constructed `LRUCache` (the constructor's default capacity
is 100, but every capacity can be passed explicitly). -/
def LRUCache.empty (maxSize : ℕ) : LRUCache K V :=
  ⟨[], maxSize⟩

/-- `LRUCache.get`: return the stored value and, when present, promote
the entry to most-recently-used (delete + set moves it to the end). -/
def LRUCache.get [DecidableEq K] (c : LRUCache K V) (key : K) : Option V × LRUCache K V :=
  match mapGet c.cache key with
  | some v => (some v, { c with cache := mapDelete c.cache key ++ [(key, v)] })
  | none => (none, c)

/-- `LRUCache.set`: refresh an existing key, otherwise evict the first
(least-recently-used) entry when at capacity, then append the new entry.
On an empty map `keys().next().value` is `undefined` and the delete is a
no-op, which `List.drop 1 [] = []` mirrors. -/
def LRUCache.set [DecidableEq K] (c : LRUCache K V) (key : K) (v : V) : LRUCache K V :=
  if (mapGet c.cache key).isSome then
    { c with cache := mapDelete c.cache key ++ [(key, v)] }
  else if c.maxSize ≤ c.cache.length then
    { c with cache := c.cache.drop 1 ++ [(key, v)] }
  else
    { c with cache := c.cache ++ [(key, v)] }

/-- `LRUCache.size`. -/
def LRUCache.size (c : LRUCache K V) : ℕ :=
  c.cache.length

/-- `LRUCache.clear`. -/
def LRUCache.clear (c : LRUCache K V) : LRUCache K V :=
  { c with cache := [] }

/-- The keys currently stored, oldest first. -/
def LRUCache.keyList (c : LRUCache K V) : List K :=
  c.cache.map (·.1)

/-- Insert a list of keys in order, each with payload `0`
(`cache.set(k, v)` per key). -/
def LRUCache.insertList [DecidableEq K] (c : LRUCache K ℕ) (ks : List K) : LRUCache K ℕ :=
  ks.foldl (fun c k => c.set k 0) c

/-! ### fetchJson retry control flow (http.ts)

`fetchJson` is modelled as a function of the script of responses the
server will give, one per attempt; waiting (`Retry-After` or the fixed
backoff) only affects timing, never control flow, and is elided.  An
exhausted script means the code was still issuing attempts when the
script ran out. -/

/-- One HTTP response: either `response.ok` with a body, or a non-2xx
status code. -/
inductive HttpResponse where
  | ok (body : String)
  | err (code : ℕ)
deriving DecidableEq

/-- The observable outcome of `fetchJson` against a finite response
script. -/
inductive FetchOutcome where
  | success (body : String)
  | httpError (code : ℕ)
  | exhausted
deriving DecidableEq

/-- `fetchJson` from http.ts: a 429/503 response triggers an unguarded
recursive call `return fetchJson(url, options)` (the source comment says
"Retry once" but no attempt counter exists); any other non-2xx status
raises `HttpError`. -/
def fetchJson : List HttpResponse → FetchOutcome
  | [] => .exhausted
  | .ok body :: _ => .success body
  | .err code :: rest =>
    if code = 429 ∨ code = 503 then fetchJson rest
    else .httpError code

/-- The number of attempts `fetchJson` performs against a script. -/
def attemptsUsed : List HttpResponse → ℕ
  | [] => 0
  | .ok _ :: _ => 1
  | .err code :: rest =>
    if code = 429 ∨ code = 503 then 1 + attemptsUsed rest
    else 1

/-! ### api.ts: global-id parsing, search cache key, chapters, pages -/

/-- JS `String.prototype.split` with a single-character separator:
`"a:b:c".split(':') = ["a","b","c"]`, `"".split(':') = [""]`. -/
def splitCharsOn (sep : Char) : List Char → List (List Char)
  | [] => [[]]
  | c :: t =>
    match splitCharsOn sep t with
    | [] => [[c]]
    | p :: ps => if c = sep then [] :: p :: ps else (c :: p) :: ps

/-- `globalId.split(':')` as a list of strings. -/
def jsSplitColon (s : String) : List String :=
  (splitCharsOn ':' s.data).map String.mk

/-- The global-id parsing of `getMangaDetails` / `getChapters` /
`getChapterPages`: `const [providerId, seriesId] = globalId.split(':')`
followed by `if (!providerId || !seriesId) throw`.  `none` is the thrown
`InvalidId` error; note the destructuring keeps only the first two parts
of the split. -/
def parseGlobalId (globalId : String) : Option (String × String) :=
  let parts := jsSplitColon globalId
  match parts.get? 0, parts.get? 1 with
  | some providerId, some rawId =>
    if providerId = "" ∨ rawId = "" then none else some (providerId, rawId)
  | _, _ => none

/-- The remainder of a global id after `provider:`, i.e. the raw id a
non-truncating parse would use. -/
def fullRemainder (globalId provider : String) : String :=
  (globalId.drop (provider.length + 1))

set_option linter.unusedVariables false in
/-- The search cache key of `searchMangaMulti` (api.ts line 48):
`` `${query}:${page}:${lang || 'all'}:${providers?.join(',') || 'all'}` ``.
`limit` is in scope at the construction site but does not occur in the
expression. -/
def searchCacheKey (query : String) (page : ℕ) (lang : Option String)
    (providers : Option (List String)) (limit : ℕ) : String :=
  query ++ ":" ++ toString page ++ ":" ++ jsOrStr lang "all" ++ ":" ++
    (match providers with
     | some l => let j := String.intercalate "," l; if j = "" then "all" else j
     | none => "all")

/-- A chapter number as validated by `ProviderChapterSchema`
(`z.union([z.string(), z.number()])`). -/
inductive ChapterNum where
  | str (s : String)
  | num (q : ℚ)
deriving DecidableEq

/-- `ProviderChapter` (schema part_001). -/
structure ProviderChapter where
  id : String
  title : Option String := none
  chapterNumber : Option ChapterNum := none
  releaseDate : Option String := none
  url : Option String := none
  pages : Option ℚ := none
deriving DecidableEq

/-- Digit run to natural number. -/
def digitsToNat (l : List Char) : ℕ :=
  l.foldl (fun acc c => acc * 10 + (c.toNat - '0'.toNat)) 0

/-- Model of JS `parseFloat` for the plain decimal strings relevant here:
skip leading whitespace, optional sign, integer digits, optional `.` and
fraction digits; parsing stops at the first unusable character and `none`
is `NaN` (no digit found).  Exponent notation and `Infinity` are not
modelled. -/
def parseFloatQ (s : String) : Option ℚ :=
  let l := s.data.dropWhile (isSpaceChar ·)
  let sign : ℤ := if l.get? 0 = some '-' then -1 else 1
  let l := if l.get? 0 = some '-' ∨ l.get? 0 = some '+' then l.drop 1 else l
  let intDigits := l.takeWhile (·.isDigit)
  let l := l.drop intDigits.length
  let fracDigits := if l.get? 0 = some '.' then (l.drop 1).takeWhile (·.isDigit) else []
  if intDigits = [] ∧ fracDigits = [] then none
  else if fracDigits = [] then some ((sign * digitsToNat intDigits : ℤ) : ℚ)
  else
    some (((sign * (digitsToNat intDigits * 10 ^ fracDigits.length + digitsToNat fracDigits) : ℤ) : ℚ)
      / (10 ^ fracDigits.length : ℚ))

/-- The numeric sort key `parseFloat(chapterNumber?.toString() || '0')`
of the chapter comparator: an absent `chapterNumber` (and the falsy `""`)
becomes `'0'`; a numeric `chapterNumber` round-trips through `toString` /
`parseFloat` to itself (JS number printing is read-back exact); `none` is
`NaN`. -/
def chapterSortKey (c : ProviderChapter) : Option ℚ :=
  match c.chapterNumber with
  | none => some 0
  | some (.num q) => some q
  | some (.str s) => if s = "" then some 0 else parseFloatQ s

/-- The `order` option of `chapters` (`'asc' | 'desc'`). -/
inductive ChapterOrder where
  | asc
  | desc
deriving DecidableEq

/-- The chapter comparator of `ConsumetProvider.chapters` as consumed by
the sort: `le a b` states that the comparator value
(`aNum - bNum` for `'asc'`, `bNum - aNum` for `'desc'`) is ≤ 0; a `NaN`
comparator value is coerced to `+0` by ECMAScript `SortCompare`, so both
directions hold (a tie). -/
def chapterCmpLe (order : ChapterOrder) (a b : ProviderChapter) : Bool :=
  match chapterSortKey a, chapterSortKey b with
  | some x, some y =>
    match order with
    | .asc => decide (x ≤ y)
    | .desc => decide (y ≤ x)
  | _, _ => true

/-- The sort step of `ConsumetProvider.chapters` on the validated chapter
list, with the `opts?.order || 'asc'` default. -/
def chaptersSorted (order : Option ChapterOrder) (validatedChapters : List ProviderChapter) :
    List ProviderChapter :=
  sortLe (chapterCmpLe (order.getD .asc)) validatedChapters

/-- `ProviderPage` (schema part_001). -/
structure ProviderPage where
  img : String
  page : Option ℚ := none
deriving DecidableEq

/-- The per-page normalization of `ConsumetProvider.pages` on the
validated response: `page: validated.page || index`. -/
def consumetPages (response : List ProviderPage) : List ProviderPage :=
  response.enum.map fun ip => { ip.2 with page := some (jsOrNum ip.2.page (ip.1 : ℚ)) }

/-- `PageImage` as built by `getChapterPages`. -/
structure PageImage where
  index : ℚ
  originalUrl : String
  dataSaverUrl : Option String
deriving DecidableEq

/-- The conversion step of `getChapterPages`:
`index: page.page || index`, URLs, then `sort((a, b) => a.index - b.index)`. -/
def pageImagesOf (dataSaver : Bool) (providerPages : List ProviderPage) : List PageImage :=
  sortLe (fun a b => decide (a.index ≤ b.index))
    (providerPages.enum.map fun ip =>
      { index := jsOrNum ip.2.page (ip.1 : ℚ)
        originalUrl := ip.2.img
        dataSaverUrl := if dataSaver then some ip.2.img else none })

/-- The composed `getPages` path for a page-supporting provider: the
adapter's normalization followed by `getChapterPages`' conversion and
sort (transport and schema validation abstracted to the validated input
list). -/
def getPages (dataSaver : Bool) (response : List ProviderPage) : List PageImage :=
  pageImagesOf dataSaver (consumetPages response)

/-- Total number of `Source` records across a canonical list. -/
def sourcesTotal (l : List Manga) : ℕ :=
  (l.map (·.sources.length)).sum

/-- Total number of provider records in a fan-out batch. -/
def recordsTotal (results : List ProviderBatch) : ℕ :=
  (results.map (·.data.length)).sum

/-- The priority-100 provider's record of the C1 scenario
(`{title:"One Piece", author:"Oda"}` from mangadex). -/
def onePieceMD : ProviderSearchResult :=
  { id := "md1", title := "One Piece", authors := some ["Oda"] }

/-- The priority-90 provider's record of the C1 scenario
(`{title:"One Piece ", author:"Eiichiro Oda"}` from comick). -/
def onePieceCK : ProviderSearchResult :=
  { id := "ck1", title := "One Piece ", authors := some ["Eiichiro Oda"] }

/-- The two-provider merge batch of the C1 scenario. -/
def onePieceBatch : List ProviderBatch :=
  [⟨[onePieceMD], "mangadex"⟩, ⟨[onePieceCK], "comick"⟩]

/-! Auxiliary objects for analysing the Jaro–Winkler matching phase. -/

/-- The positions `j < n` with `s[j] = c`, in ascending order. -/
def posnsLt (c : Char) (n : ℕ) (s : List Char) : List ℕ :=
  (List.range n).filter fun j => s.get? j == some c

/-- All positions of `c` in `s`, ascending. -/
def posns (c : Char) (s : List Char) : List ℕ :=
  posnsLt c s.length s

/-- Synchronised two-pointer matching of two ascending position lists
within window `d`: match the heads when they are within `d` of each
other, otherwise drop the smaller head (both on a distant tie, which can
only occur for `d < 0`).  Returns the matched pairs and the unconsumed
suffix of the second list. -/
def tpF (d : ℤ) : List ℕ → List ℕ → List (ℕ × ℕ) × List ℕ
  | [], qs => ([], qs)
  | _ :: _, [] => ([], [])
  | p :: ps, q :: qs =>
    if ((p : ℤ) - q).natAbs ≤ d then
      let r := tpF d ps qs
      ((p, q) :: r.1, r.2)
    else if q < p then tpF d (p :: ps) qs
    else if p < q then tpF d ps (q :: qs)
    else tpF d ps qs
termination_by P Q => P.length + Q.length
decreasing_by all_goals simp_arith

/-- The characters at the matched positions of a flagged string, in
order. -/
def matchedChars (l : List (Char × Bool)) : List Char :=
  (l.filter (·.2)).map (·.1)

/-- Position-wise difference count of two character sequences (excess
length ignored). -/
def hamming : List Char → List Char → ℕ
  | a :: xs, b :: ys => (if a = b then 0 else 1) + hamming xs ys
  | _, _ => 0

/-! ### Generic lemmas about the stable insertion sort -/

lemma length_insertLe (le : α → α → Bool) (a : α) (l : List α) :
    (insertLe le a l).length = l.length + 1 := by
  induction l with
  | nil => rfl
  | cons b t ih =>
    by_cases h : le b a
    · simp [insertLe, h, ih]
    · simp [insertLe, h]

lemma length_sortLe (le : α → α → Bool) (l : List α) :
    (sortLe le l).length = l.length := by
  suffices h : ∀ (l acc : List α),
      (List.foldl (fun acc a => insertLe le a acc) acc l).length = acc.length + l.length by
    simpa using h l []
  intro l
  induction l with
  | nil => simp
  | cons a t ih =>
    intro acc
    simp only [List.foldl_cons, ih, length_insertLe, List.length_cons]
    omega

lemma mem_insertLe (le : α → α → Bool) (a x : α) (l : List α) :
    x ∈ insertLe le a l ↔ x = a ∨ x ∈ l := by
  induction l with
  | nil => simp [insertLe]
  | cons b t ih =>
    cases hba : le b a with
    | true =>
      simp only [insertLe, hba, if_true, List.mem_cons, ih]
      tauto
    | false =>
      simp only [insertLe, hba, Bool.false_eq_true, if_false, List.mem_cons]

lemma perm_insertLe (le : α → α → Bool) (a : α) (l : List α) :
    List.Perm (insertLe le a l) (a :: l) := by
  induction l with
  | nil => rfl
  | cons b t ih =>
    cases hba : le b a with
    | true =>
      simpa [insertLe, hba] using (ih.cons b).trans (List.Perm.swap a b t)
    | false => simp [insertLe, hba]

lemma perm_sortLe (le : α → α → Bool) (l : List α) : List.Perm (sortLe le l) l := by
  suffices h : ∀ (l acc : List α),
      List.Perm (List.foldl (fun acc a => insertLe le a acc) acc l) (acc ++ l) by
    simpa using h l []
  intro l
  induction l with
  | nil => simp
  | cons a t ih =>
    intro acc
    simp only [List.foldl_cons]
    exact ((ih (insertLe le a acc)).trans
      (((perm_insertLe le a acc).append_right t).trans List.perm_middle.symm))

lemma sorted_insertLe {le : α → α → Bool} {P : α → Prop}
    (htot : ∀ a b, P a → P b → le a b = true ∨ le b a = true)
    (htrans : ∀ a b c, P a → P b → P c → le a b = true → le b c = true → le a c = true)
    {a : α} {l : List α} (ha : P a) (hl : ∀ x ∈ l, P x)
    (h : l.Sorted (le · · = true)) :
    (insertLe le a l).Sorted (le · · = true) := by
  induction l with
  | nil => simp [insertLe]
  | cons b t ih =>
    rw [List.sorted_cons] at h
    by_cases hba : le b a
    · rw [insertLe, if_pos hba, List.sorted_cons]
      refine ⟨?_, ih (fun x hx => hl x (List.mem_cons_of_mem b hx)) h.2⟩
      intro x hx
      rcases (mem_insertLe le a x t).mp hx with rfl | hx
      · exact hba
      · exact h.1 x hx
    · rw [insertLe, if_neg hba, List.sorted_cons]
      have hb : P b := hl b (List.mem_cons_self b t)
      have hab : le a b = true := by
        rcases htot a b ha hb with h1 | h1
        · exact h1
        · exact absurd h1 hba
      refine ⟨?_, List.sorted_cons.mpr h⟩
      intro x hx
      rcases List.mem_cons.mp hx with rfl | hx
      · exact hab
      · exact htrans a b x ha hb (hl x (List.mem_cons_of_mem b hx)) hab (h.1 x hx)

lemma sorted_sortLe {le : α → α → Bool} {P : α → Prop}
    (htot : ∀ a b, P a → P b → le a b = true ∨ le b a = true)
    (htrans : ∀ a b c, P a → P b → P c → le a b = true → le b c = true → le a c = true)
    {l : List α} (hl : ∀ x ∈ l, P x) :
    (sortLe le l).Sorted (le · · = true) := by
  suffices h : ∀ (l acc : List α), (∀ x ∈ l, P x) → (∀ x ∈ acc, P x) →
      acc.Sorted (le · · = true) →
      (List.foldl (fun acc a => insertLe le a acc) acc l).Sorted (le · · = true) by
    exact h l [] hl (by simp) (by simp)
  intro l
  induction l with
  | nil => intro acc _ _ hs; simpa using hs
  | cons a t ih =>
    intro acc hlP haccP hs
    simp only [List.foldl_cons]
    refine ih (insertLe le a acc) (fun x hx => hlP x (List.mem_cons_of_mem a hx)) ?_ ?_
    · intro x hx
      rcases (mem_insertLe le a x acc).mp hx with rfl | hx
      · exact hlP _ (List.mem_cons_self _ t)
      · exact haccP x hx
    · exact sorted_insertLe htot htrans (hlP a (List.mem_cons_self a t)) haccP hs

lemma insertLe_all_le {le : α → α → Bool} {a : α} {l : List α}
    (h : ∀ x ∈ l, le x a = true) : insertLe le a l = l ++ [a] := by
  induction l with
  | nil => rfl
  | cons b t ih =>
    rw [insertLe, if_pos (h b (List.mem_cons_self b t)),
      ih (fun x hx => h x (List.mem_cons_of_mem b hx))]
    rfl

lemma sortLe_of_sorted {le : α → α → Bool} {l : List α}
    (h : l.Sorted (le · · = true)) : sortLe le l = l := by
  suffices hgen : ∀ (l₂ l₁ : List α), (l₁ ++ l₂).Sorted (le · · = true) →
      List.foldl (fun acc a => insertLe le a acc) l₁ l₂ = l₁ ++ l₂ by
    simpa using hgen l [] (by simpa using h)
  intro l₂
  induction l₂ with
  | nil => intro l₁ _; simp
  | cons a t ih =>
    intro l₁ hs
    simp only [List.foldl_cons]
    have hstep : insertLe le a l₁ = l₁ ++ [a] := by
      refine insertLe_all_le fun x hx => ?_
      have := (List.pairwise_append.mp hs).2.2
      exact this x hx a (List.mem_cons_self a t)
    rw [hstep, ih (l₁ ++ [a]) (by simpa using hs)]
    simp

/-! ### Claim C2: malformed global ids are silently truncated -/

/-- Claim C2 (code divergence witness): `parseGlobalId` does not reject
the malformed id `"mangadex:abc:def"`; it silently uses the raw id
`"abc"`, a strict prefix of the full remainder `"abc:def"` after the
provider prefix — the destructured `split(':')` keeps only the first two
parts. -/
theorem getDetails_truncates_colon_id :
    parseGlobalId "mangadex:abc:def" = some ("mangadex", "abc") ∧
    fullRemainder "mangadex:abc:def" "mangadex" = "abc:def" ∧
    ("abc" : String) ≠ "abc:def" := by
  refine ⟨by rfl, by rfl, by decide⟩

/-! ### Claim C3: the 429/503 retry is unbounded -/

/-- Claim C3 (code divergence witness): against a server that answers 429
to every attempt, `fetchJson` never settles — it exhausts any finite
script of `n` consecutive 429 responses while performing `n` attempts and
is still retrying, instead of propagating an `HttpError` after the second
attempt (the recursive call carries no retry counter). -/
theorem fetchJson_unbounded_retry (n : ℕ) :
    fetchJson (List.replicate n (HttpResponse.err 429)) = FetchOutcome.exhausted ∧
    attemptsUsed (List.replicate n (HttpResponse.err 429)) = n := by
  induction n with
  | zero => exact ⟨rfl, rfl⟩
  | succ k ih =>
    refine ⟨?_, ?_⟩
    · simpa [List.replicate_succ, fetchJson] using ih.1
    · simp [List.replicate_succ, attemptsUsed, ih.2]
      omega

/-! ### Claim C4: the search cache key -/

/-- Claim C4 (counterexample): two logically different requests that
differ only in `limit` produce the same cache key, and the same provider
set listed in a different order produces different keys. -/
theorem searchCacheKey_not_injective :
    searchCacheKey "naruto" 1 none none 20 = searchCacheKey "naruto" 1 none none 50 ∧
    (20 : ℕ) ≠ 50 ∧
    searchCacheKey "q" 1 none (some ["mangadex", "comick"]) 20 ≠
      searchCacheKey "q" 1 none (some ["comick", "mangadex"]) 20 := by
  refine ⟨rfl, by decide, by decide⟩

/-- Claim C4 (amended): the cache key is built from query, page, language
and the provider list in its given order — `limit` never enters the key —
and with page, language, provider list fixed it distinguishes queries:
keys built from any two limits agree exactly when the queries agree. -/
theorem searchCacheKey_eq_iff_query_eq (q1 q2 : String) (page : ℕ) (lang : Option String)
    (providers : Option (List String)) (lim1 lim2 : ℕ) :
    searchCacheKey q1 page lang providers lim1 = searchCacheKey q2 page lang providers lim2 ↔
      q1 = q2 := by
  constructor
  · intro h
    simp only [searchCacheKey, String.append_assoc] at h
    have hdata := congrArg String.data h
    simp only [String.data_append] at hdata
    exact String.ext (List.append_cancel_right hdata)
  · rintro rfl
    rfl

/-! ### Claim C9: LRU cache behaviour -/

lemma mapGet_eq_none_of_not_mem [DecidableEq K] (l : List (K × V)) (k : K)
    (h : k ∉ l.map (·.1)) : mapGet l k = none := by
  induction l with
  | nil => rfl
  | cons p t ih =>
    obtain ⟨k0, v0⟩ := p
    simp only [List.map_cons, List.mem_cons] at h
    push_neg at h
    rw [mapGet, if_neg fun he => h.1 he.symm]
    exact ih h.2

lemma mapGet_map_zero [DecidableEq K] (ks : List K) (k : K) (h : k ∈ ks) :
    mapGet (ks.map fun k => (k, 0)) k = some 0 := by
  induction ks with
  | nil => cases h
  | cons k0 t ih =>
    rcases List.mem_cons.mp h with rfl | h
    · simp [mapGet]
    · by_cases he : k0 = k
      · simp [mapGet, he]
      · simpa [mapGet, he] using ih h

lemma mapDelete_map_zero [DecidableEq K] (ks : List K) (k : K) :
    mapDelete (ks.map fun k => (k, 0)) k = (ks.erase k).map fun k => (k, 0) := by
  induction ks with
  | nil => rfl
  | cons k0 t ih =>
    by_cases he : k0 = k
    · subst he
      simp [mapDelete, List.erase_cons_head]
    · have herase : (k0 :: t).erase k = k0 :: t.erase k := by
        simp [List.erase_cons, he]
      rw [List.map_cons, mapDelete, if_neg he, herase, List.map_cons, ih]

lemma LRUCache.set_maxSize [DecidableEq K] (c : LRUCache K V) (k : K) (v : V) :
    (c.set k v).maxSize = c.maxSize := by
  rw [LRUCache.set]
  split
  · rfl
  split <;> rfl

lemma LRUCache.insertList_maxSize [DecidableEq K] (c : LRUCache K ℕ) (l : List K) :
    (c.insertList l).maxSize = c.maxSize := by
  induction l generalizing c with
  | nil => rfl
  | cons k t ih =>
    have hcons : c.insertList (k :: t) = (c.set k 0).insertList t := rfl
    rw [hcons, ih, LRUCache.set_maxSize]

lemma LRUCache.set_fresh_not_full [DecidableEq K] (c : LRUCache K V) (k : K) (v : V)
    (hk : k ∉ c.keyList) (hlen : c.cache.length < c.maxSize) :
    (c.set k v).cache = c.cache ++ [(k, v)] := by
  rw [LRUCache.set, if_neg, if_neg (by omega)]
  rw [mapGet_eq_none_of_not_mem c.cache k hk]
  simp

lemma LRUCache.insertList_fresh [DecidableEq K] (c : LRUCache K ℕ) (ks : List K)
    (hnd : ks.Nodup) (hfresh : ∀ k ∈ ks, k ∉ c.keyList)
    (hlen : c.cache.length + ks.length ≤ c.maxSize) :
    (c.insertList ks).cache = c.cache ++ ks.map (fun k => (k, 0)) := by
  induction ks generalizing c with
  | nil => simp [LRUCache.insertList]
  | cons k t ih =>
    have hcons : c.insertList (k :: t) = (c.set k 0).insertList t := rfl
    have hset : (c.set k 0).cache = c.cache ++ [(k, 0)] := by
      refine LRUCache.set_fresh_not_full c k 0 (hfresh k (List.mem_cons_self k t)) ?_
      simp only [List.length_cons] at hlen
      omega
    rw [hcons, ih (c.set k 0) (List.nodup_cons.mp hnd).2 ?_ ?_]
    · rw [hset]
      simp
    · intro k2 hk2
      rw [LRUCache.keyList, hset]
      simp only [List.map_append, List.mem_append, List.map_cons, List.map_nil]
      rintro (h2 | h2)
      · exact hfresh k2 (List.mem_cons_of_mem k hk2) h2
      · simp only [List.mem_singleton] at h2
        exact (List.nodup_cons.mp hnd).1 (h2 ▸ hk2)
    · rw [hset, LRUCache.set_maxSize]
      simp only [List.length_append, List.length_cons, List.length_nil] at hlen ⊢
      omega

lemma LRUCache.empty_insertList_cache [DecidableEq K] (C : ℕ) (ks : List K)
    (hnd : ks.Nodup) (hlen : ks.length ≤ C) :
    ((LRUCache.empty C : LRUCache K ℕ).insertList ks).cache = ks.map (fun k => (k, 0)) := by
  have h := LRUCache.insertList_fresh (LRUCache.empty C : LRUCache K ℕ) ks hnd
    (by intro k _; simp [LRUCache.keyList, LRUCache.empty]) (by simpa [LRUCache.empty] using hlen)
  simpa [LRUCache.empty] using h

/-- Claim C9 (counterexample): at capacity 0, inserting one key leaves the
cache at size 1, not 0 (the eviction deletes the `undefined` first key of
an empty map, a no-op); at capacity 1, a `get`-promoted key is still the
next eviction victim. -/
theorem LRUCache_capacity_edge_cases :
    ((LRUCache.empty 0 : LRUCache String ℕ).set "a" 0).size = 1 ∧
    "a" ∉ (((((LRUCache.empty 1 : LRUCache String ℕ).set "a" 0).get "a").2).set "b" 0).keyList := by
  decide

/-- Claim C9 (amended): for a capacity C ≥ 1 cache, inserting C+1 distinct
keys with no intervening gets evicts exactly the first-inserted key and
leaves the cache at size C; and for C ≥ 2, a `get` on an existing key
before capacity is exceeded promotes it so that the following
capacity-exceeding `set` evicts some other key. -/
theorem LRUCache_eviction_and_promotion {K : Type} [DecidableEq K] :
    (∀ (C : ℕ) (ks : List K), 1 ≤ C → ks.Nodup → ks.length = C + 1 →
      ((LRUCache.empty C : LRUCache K ℕ).insertList ks).keyList = ks.drop 1 ∧
      ((LRUCache.empty C : LRUCache K ℕ).insertList ks).size = C) ∧
    (∀ (C : ℕ) (ks : List K) (ki knew : K), 2 ≤ C → ks.Nodup → ks.length = C →
      ki ∈ ks → knew ∉ ks →
      ki ∈ ((((LRUCache.empty C : LRUCache K ℕ).insertList ks).get ki).2.set knew 0).keyList) := by
  constructor
  · intro C ks hC hnd hlen
    have hne : ks ≠ [] := by
      intro h
      rw [h] at hlen
      simp at hlen
    rcases ks.eq_nil_or_concat' with rfl | ⟨init, klast, rfl⟩
    · exact absurd rfl hne
    have hinitlen : init.length = C := by
      simp only [List.length_append, List.length_cons, List.length_nil] at hlen
      omega
    have hndi := hnd
    rw [List.nodup_append] at hndi
    have hfold : (LRUCache.empty C : LRUCache K ℕ).insertList (init ++ [klast]) =
        ((LRUCache.empty C : LRUCache K ℕ).insertList init).set klast 0 := by
      rw [LRUCache.insertList, List.foldl_append]
      rfl
    have hcache : ((LRUCache.empty C : LRUCache K ℕ).insertList init).cache =
        init.map (fun k => (k, 0)) :=
      LRUCache.empty_insertList_cache C init hndi.1 (le_of_eq hinitlen)
    have hget : mapGet ((LRUCache.empty C : LRUCache K ℕ).insertList init).cache klast = none := by
      rw [hcache]
      refine mapGet_eq_none_of_not_mem _ _ ?_
      intro hmem
      simp only [List.map_map] at hmem
      have : klast ∈ init := by simpa using hmem
      exact hndi.2.2 this (List.mem_singleton_self klast)
    have hmaxs : ((LRUCache.empty C : LRUCache K ℕ).insertList init).maxSize = C := by
      rw [LRUCache.insertList_maxSize]
      rfl
    have hfull : ((LRUCache.empty C : LRUCache K ℕ).insertList init).maxSize ≤
        ((LRUCache.empty C : LRUCache K ℕ).insertList init).cache.length := by
      rw [hmaxs, hcache]
      simp [hinitlen]
    have hsetc : (((LRUCache.empty C : LRUCache K ℕ).insertList init).set klast 0).cache =
        (init.map (fun k => (k, 0))).drop 1 ++ [(klast, 0)] := by
      rw [LRUCache.set, if_neg (by rw [hget]; simp), if_pos hfull, hcache]
    constructor
    · rw [hfold, LRUCache.keyList, hsetc]
      have hdrop : (init ++ [klast]).drop 1 = init.drop 1 ++ [klast] := by
        refine List.drop_append_of_le_length ?_
        omega
      rw [hdrop]
      simp [List.map_drop, Function.comp_def]
    · rw [hfold, LRUCache.size, hsetc]
      simp only [List.length_append, List.length_drop, List.length_map, List.length_cons,
        List.length_nil, hinitlen]
      omega
  · intro C ks ki knew hC hnd hlen hki hknew
    have hcache : ((LRUCache.empty C : LRUCache K ℕ).insertList ks).cache =
        ks.map (fun k => (k, 0)) :=
      LRUCache.empty_insertList_cache C ks hnd (le_of_eq hlen)
    have hmaxs : ((LRUCache.empty C : LRUCache K ℕ).insertList ks).maxSize = C := by
      rw [LRUCache.insertList_maxSize]
      rfl
    set c0 := (LRUCache.empty C : LRUCache K ℕ).insertList ks with hc0
    have hgetki : mapGet c0.cache ki = some 0 := by
      rw [hcache]
      exact mapGet_map_zero ks ki hki
    have hpromoted : (c0.get ki).2.cache = (ks.erase ki).map (fun k => (k, 0)) ++ [(ki, 0)] := by
      rw [LRUCache.get, hgetki]
      simp only
      rw [hcache, mapDelete_map_zero]
    have hmax2 : (c0.get ki).2.maxSize = C := by
      rw [LRUCache.get, hgetki]
      simpa using hmaxs
    have heraselen : (ks.erase ki).length = C - 1 := by
      rw [List.length_erase_of_mem hki, hlen]
    have hgetknew : mapGet (c0.get ki).2.cache knew = none := by
      rw [hpromoted]
      refine mapGet_eq_none_of_not_mem _ _ ?_
      intro hmem
      simp only [List.map_append, List.map_map, List.mem_append] at hmem
      rcases hmem with hmem | hmem
      · have : knew ∈ ks.erase ki := by simpa using hmem
        exact hknew ((ks.erase_sublist ki).mem this)
      · simp only [List.map_cons, List.map_nil, List.mem_singleton] at hmem
        exact hknew (hmem ▸ hki)
    have hfull2 : (c0.get ki).2.maxSize ≤ (c0.get ki).2.cache.length := by
      rw [hmax2, hpromoted]
      simp only [List.length_append, List.length_map, List.length_cons, List.length_nil]
      omega
    have hsetc : ((c0.get ki).2.set knew 0).cache =
        ((ks.erase ki).map (fun k => (k, 0)) ++ [(ki, 0)]).drop 1 ++ [(knew, 0)] := by
      rw [LRUCache.set, if_neg (by rw [hgetknew]; simp), if_pos hfull2, hpromoted]
    rw [LRUCache.keyList, hsetc]
    have hdrop : ((ks.erase ki).map (fun k => (k, 0)) ++ [(ki, 0)]).drop 1 =
        ((ks.erase ki).map (fun k => (k, 0))).drop 1 ++ [(ki, 0)] := by
      refine List.drop_append_of_le_length ?_
      simp only [List.length_map]
      omega
    rw [hdrop]
    simp

/-- Claim C9 witness: the amended LRU statement applied at capacity 2 with
concrete string keys. -/
theorem LRUCache_eviction_and_promotion_witness :
    ((LRUCache.empty 2 : LRUCache String ℕ).insertList ["a", "b", "c"]).keyList =
        List.drop 1 ["a", "b", "c"] ∧
    "a" ∈ ((((LRUCache.empty 2 : LRUCache String ℕ).insertList ["a", "b"]).get "a").2.set
        "c" 0).keyList :=
  ⟨(LRUCache_eviction_and_promotion.1 2 ["a", "b", "c"] (by decide) (by decide) (by decide)).1,
   LRUCache_eviction_and_promotion.2 2 ["a", "b"] "a" "c" (by decide) (by decide) (by decide)
     (by decide) (by decide)⟩

/-! ### Claim C5: page indices -/

lemma getPages_sorted (dataSaver : Bool) (response : List ProviderPage) :
    (getPages dataSaver response).Sorted (fun a b => a.index ≤ b.index) := by
  have h := @sorted_sortLe PageImage
    (fun (a b : PageImage) => decide (a.index ≤ b.index))
    (fun _ => True)
    (fun a b _ _ => by
      rcases le_total a.index b.index with h | h
      · exact Or.inl (decide_eq_true h)
      · exact Or.inr (decide_eq_true h))
    (fun a b c _ _ _ hab hbc =>
      decide_eq_true (le_trans (of_decide_eq_true hab) (of_decide_eq_true hbc)))
    ((consumetPages response).enum.map fun ip =>
      { index := jsOrNum ip.2.page (ip.1 : ℚ)
        originalUrl := ip.2.img
        dataSaverUrl := if dataSaver then some ip.2.img else none })
    (fun _ _ => trivial)
  exact h.imp fun hx => of_decide_eq_true hx

lemma getPages_indices_aux (dataSaver : Bool) (l : List ProviderPage) (n : ℕ)
    (h : ∀ p ∈ l, p.page = none ∨ p.page = some 0) :
    ((List.enumFrom n ((List.enumFrom n l).map
        (fun ip => { ip.2 with page := some (jsOrNum ip.2.page (ip.1 : ℚ)) }))).map
      (fun ip => ({ index := jsOrNum ip.2.page (ip.1 : ℚ)
                    originalUrl := ip.2.img
                    dataSaverUrl := if dataSaver then some ip.2.img else none } : PageImage))).map
        (·.index)
      = List.map (fun i : ℕ => (i : ℚ)) (List.range' n l.length) := by
  induction l generalizing n with
  | nil => simp
  | cons p t ih =>
    have hp : jsOrNum p.page (n : ℚ) = (n : ℚ) := by
      rcases h p (List.mem_cons_self p t) with hp | hp <;> simp [hp, jsOrNum]
    simp only [List.enumFrom_cons, List.map_cons, List.length_cons, List.range'_succ]
    rw [ih (n + 1) (fun q hq => h q (List.mem_cons_of_mem p hq))]
    simp [hp, jsOrNum]
    intro _
    exact hp

/-- Claim C5 (counterexample): a provider that supplies page numbers 5 and
7 yields a page list with indices `[5, 7]`, not the dense `[0, 1]` the
claim demands. -/
theorem getPages_keeps_provider_page_numbers :
    (getPages false [⟨"u5", some 5⟩, ⟨"u7", some 7⟩]).map (·.index) = [5, 7] ∧
    ([(5 : ℚ), 7] ≠ [0, 1]) := by
  constructor
  · rfl
  · decide

/-- Claim C5 (amended): every `getPages` result is sorted by
non-decreasing `index`; the indices are exactly `0, 1, …, N-1` when the
provider supplies no page number (or only the falsy `0`) — in general a
provider-supplied nonzero page number becomes the index. -/
theorem getPages_sorted_and_dense_when_unnumbered (dataSaver : Bool)
    (response : List ProviderPage) :
    (getPages dataSaver response).Sorted (fun a b => a.index ≤ b.index) ∧
    ((∀ p ∈ response, p.page = none ∨ p.page = some 0) →
      (getPages dataSaver response).map (·.index) =
        List.map (fun i : ℕ => (i : ℚ)) (List.range response.length)) := by
  refine ⟨getPages_sorted dataSaver response, fun h => ?_⟩
  have haux := getPages_indices_aux dataSaver response 0 h
  have hL : getPages dataSaver response = sortLe (fun a b => decide (a.index ≤ b.index))
      ((List.enumFrom 0 ((List.enumFrom 0 response).map
        (fun ip => { ip.2 with page := some (jsOrNum ip.2.page (ip.1 : ℚ)) }))).map
      (fun ip => ({ index := jsOrNum ip.2.page (ip.1 : ℚ)
                    originalUrl := ip.2.img
                    dataSaverUrl := if dataSaver then some ip.2.img else none } : PageImage))) := by
    rw [getPages, pageImagesOf, consumetPages, List.enum_eq_enumFrom, List.enum_eq_enumFrom]
  have hsortedL : (((List.enumFrom 0 ((List.enumFrom 0 response).map
        (fun ip => { ip.2 with page := some (jsOrNum ip.2.page (ip.1 : ℚ)) }))).map
      (fun ip => ({ index := jsOrNum ip.2.page (ip.1 : ℚ)
                    originalUrl := ip.2.img
                    dataSaverUrl := if dataSaver then some ip.2.img else none } : PageImage)))).Sorted
      (fun a b => (decide (a.index ≤ b.index)) = true) := by
    have hidx := haux
    have hmono : (((List.enumFrom 0 ((List.enumFrom 0 response).map
        (fun ip => { ip.2 with page := some (jsOrNum ip.2.page (ip.1 : ℚ)) }))).map
      (fun ip => ({ index := jsOrNum ip.2.page (ip.1 : ℚ)
                    originalUrl := ip.2.img
                    dataSaverUrl := if dataSaver then some ip.2.img else none } : PageImage))).map
        (·.index)).Pairwise (· ≤ ·) := by
      rw [hidx]
      refine List.pairwise_map.mpr ?_
      refine (List.pairwise_lt_range' 0 response.length 1).imp ?_
      intro a b hab
      exact_mod_cast le_of_lt hab
    rw [List.pairwise_map] at hmono
    exact hmono.imp fun hx => decide_eq_true hx
  rw [hL, sortLe_of_sorted hsortedL]
  have : (List.range response.length) = List.range' 0 response.length := List.range_eq_range' _
  rw [this]
  exact haux

/-- Claim C5 witness: the amended statement applied to a two-page response
with no provider page numbers. -/
theorem getPages_sorted_and_dense_witness :
    (getPages false [⟨"a", none⟩, ⟨"b", some 0⟩]).Sorted (fun a b => a.index ≤ b.index) ∧
    (getPages false [⟨"a", none⟩, ⟨"b", some 0⟩]).map (·.index) =
      List.map (fun i : ℕ => (i : ℚ)) (List.range 2) := by
  have h := getPages_sorted_and_dense_when_unnumbered false [⟨"a", none⟩, ⟨"b", some 0⟩]
  exact ⟨h.1, h.2 (by decide)⟩

/-! ### Claim C6: chapter sorting -/

/-- Claim C6 (counterexample): under ascending order, the chapter with
the unparsable number `"abc"` does not precede the chapter numbered
`"5"` — its comparator value is `NaN`, which `SortCompare` coerces to a
tie, so the stable sort leaves the pair in input order. -/
theorem chapters_unparsable_keeps_position :
    chaptersSorted none
        [{ id := "1", chapterNumber := some (.str "5") },
         { id := "2", chapterNumber := some (.str "abc") }] =
      [{ id := "1", chapterNumber := some (.str "5") },
       { id := "2", chapterNumber := some (.str "abc") }] ∧
    parseFloatQ "abc" = none ∧
    ([{ id := "1", chapterNumber := some (.str "5") },
      { id := "2", chapterNumber := some (.str "abc") }] : List ProviderChapter) ≠
      [{ id := "2", chapterNumber := some (.str "abc") },
       { id := "1", chapterNumber := some (.str "5") }] := by
  refine ⟨rfl, rfl, by decide⟩

/-- Claim C6 (amended): the chapter sort is a permutation of its input;
when every chapter's sort key is an actual number (its `chapterNumber` is
absent, numeric, or a parsable string), the result is ordered by the key,
ascending for `'asc'`/omitted and descending for `'desc'`; an absent
`chapterNumber` has key 0.  Chapters with an unparsable `chapterNumber`
have a `NaN` key, compare as ties in every direction and therefore keep
their relative position instead of sorting as 0. -/
theorem chapters_sorted_when_parsable (order : Option ChapterOrder)
    (chs : List ProviderChapter) (h : ∀ c ∈ chs, (chapterSortKey c).isSome) :
    List.Perm (chaptersSorted order chs) chs ∧
    ((order = none ∨ order = some .asc) →
      (chaptersSorted order chs).Sorted (fun a b =>
        (chapterSortKey a).getD 0 ≤ (chapterSortKey b).getD 0)) ∧
    (order = some .desc →
      (chaptersSorted order chs).Sorted (fun a b =>
        (chapterSortKey b).getD 0 ≤ (chapterSortKey a).getD 0)) ∧
    (∀ c : ProviderChapter, c.chapterNumber = none → chapterSortKey c = some 0) := by
  refine ⟨perm_sortLe _ chs, ?_, ?_, fun c hc => by rw [chapterSortKey, hc]⟩
  · rintro (rfl | rfl) <;>
    · have hs := @sorted_sortLe ProviderChapter (chapterCmpLe .asc)
        (fun c => (chapterSortKey c).isSome)
        (fun a b ha hb => by
          obtain ⟨x, hx⟩ := Option.isSome_iff_exists.mp ha
          obtain ⟨y, hy⟩ := Option.isSome_iff_exists.mp hb
          rcases le_total x y with hxy | hxy
          · exact Or.inl (by simp [chapterCmpLe, hx, hy, hxy])
          · exact Or.inr (by simp [chapterCmpLe, hx, hy, hxy]))
        (fun a b c ha hb hc hab hbc => by
          obtain ⟨x, hx⟩ := Option.isSome_iff_exists.mp ha
          obtain ⟨y, hy⟩ := Option.isSome_iff_exists.mp hb
          obtain ⟨z, hz⟩ := Option.isSome_iff_exists.mp hc
          rw [chapterCmpLe, hx, hy] at hab
          rw [chapterCmpLe, hy, hz] at hbc
          rw [chapterCmpLe, hx, hz]
          exact decide_eq_true (le_trans (of_decide_eq_true hab) (of_decide_eq_true hbc)))
        chs h
      refine List.Pairwise.imp_of_mem ?_ hs
      intro a b ha hb hab
      have ha2 := h a ((perm_sortLe (chapterCmpLe .asc) chs).mem_iff.mp ha)
      have hb2 := h b ((perm_sortLe (chapterCmpLe .asc) chs).mem_iff.mp hb)
      obtain ⟨x, hx⟩ := Option.isSome_iff_exists.mp ha2
      obtain ⟨y, hy⟩ := Option.isSome_iff_exists.mp hb2
      rw [chapterCmpLe, hx, hy] at hab
      rw [hx, hy]
      simpa using of_decide_eq_true hab
  · rintro rfl
    have hs := @sorted_sortLe ProviderChapter (chapterCmpLe .desc)
      (fun c => (chapterSortKey c).isSome)
      (fun a b ha hb => by
        obtain ⟨x, hx⟩ := Option.isSome_iff_exists.mp ha
        obtain ⟨y, hy⟩ := Option.isSome_iff_exists.mp hb
        rcases le_total y x with hxy | hxy
        · exact Or.inl (by simp [chapterCmpLe, hx, hy, hxy])
        · exact Or.inr (by simp [chapterCmpLe, hx, hy, hxy]))
      (fun a b c ha hb hc hab hbc => by
        obtain ⟨x, hx⟩ := Option.isSome_iff_exists.mp ha
        obtain ⟨y, hy⟩ := Option.isSome_iff_exists.mp hb
        obtain ⟨z, hz⟩ := Option.isSome_iff_exists.mp hc
        rw [chapterCmpLe, hx, hy] at hab
        rw [chapterCmpLe, hy, hz] at hbc
        rw [chapterCmpLe, hx, hz]
        exact decide_eq_true (le_trans (of_decide_eq_true hbc) (of_decide_eq_true hab)))
      chs h
    refine List.Pairwise.imp_of_mem ?_ hs
    intro a b ha hb hab
    have ha2 := h a ((perm_sortLe (chapterCmpLe .desc) chs).mem_iff.mp ha)
    have hb2 := h b ((perm_sortLe (chapterCmpLe .desc) chs).mem_iff.mp hb)
    obtain ⟨x, hx⟩ := Option.isSome_iff_exists.mp ha2
    obtain ⟨y, hy⟩ := Option.isSome_iff_exists.mp hb2
    rw [chapterCmpLe, hx, hy] at hab
    rw [hx, hy]
    simpa using of_decide_eq_true hab

/-- Claim C6 witness: the amended statement applied to a concrete chapter
list with a numeric string, a plain number and an absent chapter
number. -/
theorem chapters_sorted_when_parsable_witness :
    List.Perm (chaptersSorted (some .desc)
        [{ id := "1", chapterNumber := some (.str "5") },
         { id := "2", chapterNumber := some (.num 9) },
         { id := "3" }])
      [{ id := "1", chapterNumber := some (.str "5") },
       { id := "2", chapterNumber := some (.num 9) },
       { id := "3" }] ∧
    (chaptersSorted (some .desc)
        [{ id := "1", chapterNumber := some (.str "5") },
         { id := "2", chapterNumber := some (.num 9) },
         { id := "3" }]).Sorted (fun a b =>
      (chapterSortKey b).getD 0 ≤ (chapterSortKey a).getD 0) := by
  have h := chapters_sorted_when_parsable (some .desc)
    [{ id := "1", chapterNumber := some (.str "5") },
     { id := "2", chapterNumber := some (.num 9) },
     { id := "3" }] (by decide)
  exact ⟨h.1, h.2.2.1 rfl⟩

/-! ### Claim C7: source lists stay sorted and only grow -/

lemma sortSourcesDesc_sorted (l : List Source) :
    (sortSourcesDesc l).Sorted (fun a b => b.priority ≤ a.priority) := by
  have h := @sorted_sortLe Source sourceCmpLe (fun _ => True)
    (fun a b _ _ => by
      rcases le_total b.priority a.priority with h | h
      · exact Or.inl (decide_eq_true h)
      · exact Or.inr (decide_eq_true h))
    (fun a b c _ _ _ hab hbc =>
      decide_eq_true (le_trans (of_decide_eq_true hbc) (of_decide_eq_true hab)))
    l (fun _ _ => trivial)
  exact h.imp fun hx => of_decide_eq_true hx

lemma mergeStep_sources_length (provider : String) (result : ProviderSearchResult)
    (duplicate : Manga) :
    (mergeStep provider result duplicate).sources.length = duplicate.sources.length + 1 := by
  rw [mergeStep]
  split <;> simp [sortSourcesDesc, length_sortLe]

lemma mergeStep_sources_sorted (provider : String) (result : ProviderSearchResult)
    (duplicate : Manga) :
    (mergeStep provider result duplicate).sources.Sorted (fun a b => b.priority ≤ a.priority) := by
  rw [mergeStep]
  split <;> exact sortSourcesDesc_sorted _

lemma mem_updateAt (l : List α) (i : ℕ) (f : α → α) (x : α) (hx : x ∈ updateAt l i f) :
    x ∈ l ∨ ∃ a, a ∈ l ∧ x = f a := by
  induction l generalizing i with
  | nil => cases hx
  | cons a t ih =>
    cases i with
    | zero =>
      rcases List.mem_cons.mp hx with rfl | hx
      · exact Or.inr ⟨a, List.mem_cons_self a t, rfl⟩
      · exact Or.inl (List.mem_cons_of_mem a hx)
    | succ n =>
      rcases List.mem_cons.mp hx with rfl | hx
      · exact Or.inl (List.mem_cons_self x t)
      · rcases ih n hx with h | ⟨b, hb, rfl⟩
        · exact Or.inl (List.mem_cons_of_mem a h)
        · exact Or.inr ⟨b, List.mem_cons_of_mem a hb, rfl⟩

lemma sourcesTotal_updateAt (l : List Manga) (i : ℕ) (f : Manga → Manga)
    (hf : ∀ m, (f m).sources.length = m.sources.length + 1) (hi : i < l.length) :
    sourcesTotal (updateAt l i f) = sourcesTotal l + 1 := by
  induction l generalizing i with
  | nil => cases hi
  | cons a t ih =>
    cases i with
    | zero =>
      simp only [updateAt, sourcesTotal, List.map_cons, List.sum_cons, hf a]
      omega
    | succ n =>
      have hn : n < t.length := by simpa using hi
      have := ih n hn
      simp only [updateAt, sourcesTotal, List.map_cons, List.sum_cons] at this ⊢
      omega

lemma sourcesTotal_append_single (l : List Manga) (m : Manga) :
    sourcesTotal (l ++ [m]) = sourcesTotal l + m.sources.length := by
  simp [sourcesTotal]

lemma bestMatch_lt (result : ProviderSearchResult) :
    ∀ (all : List Manga) (i : ℕ) (q : ℚ) (b : Option ℕ),
      (∀ j, b = some j → j < i) → ∀ j, bestMatch result all i q b = some j → j < i + all.length := by
  intro all
  induction all with
  | nil =>
    intro i q b hb j hj
    rw [bestMatch] at hj
    simpa using hb j hj
  | cons e t ih =>
    intro i q b hb j hj
    rw [bestMatch] at hj
    simp only [List.length_cons]
    split at hj
    · have := ih (i + 1) _ (some i) (by rintro j0 ⟨rfl⟩; omega) j hj
      omega
    · have := ih (i + 1) q b (fun j0 h0 => Nat.lt_succ_of_lt (hb j0 h0)) j hj
      omega

lemma dedupeRecord_sorted (all : List Manga) (provider : String)
    (result : ProviderSearchResult)
    (h : ∀ m ∈ all, m.sources.Sorted (fun a b => b.priority ≤ a.priority)) :
    ∀ m ∈ dedupeRecord all provider result,
      m.sources.Sorted (fun a b => b.priority ≤ a.priority) := by
  intro m hm
  rw [dedupeRecord] at hm
  split at hm
  · rcases mem_updateAt _ _ _ m hm with hmem | ⟨a, _, rfl⟩
    · exact h m hmem
    · exact mergeStep_sources_sorted provider result a
  · rcases List.mem_append.mp hm with hmem | hmem
    · exact h m hmem
    · rw [List.mem_singleton.mp hmem]
      simp [providerResultToManga]

lemma dedupeRecord_total (all : List Manga) (provider : String)
    (result : ProviderSearchResult) :
    sourcesTotal (dedupeRecord all provider result) = sourcesTotal all + 1 := by
  rw [dedupeRecord]
  split
  · rename_i i hi
    refine sourcesTotal_updateAt all i _ (fun m => mergeStep_sources_length provider result m) ?_
    have := bestMatch_lt result all 0 0 none (by rintro j ⟨⟩) i hi
    omega
  · rw [sourcesTotal_append_single]
    simp [providerResultToManga]

lemma dedupeFold_sorted_total (provider : String) (rs : List ProviderSearchResult)
    (all : List Manga)
    (h : ∀ m ∈ all, m.sources.Sorted (fun a b => b.priority ≤ a.priority)) :
    (∀ m ∈ rs.foldl (fun acc r => dedupeRecord acc provider r) all,
      m.sources.Sorted (fun a b => b.priority ≤ a.priority)) ∧
    sourcesTotal (rs.foldl (fun acc r => dedupeRecord acc provider r) all) =
      sourcesTotal all + rs.length := by
  induction rs generalizing all with
  | nil => exact ⟨h, rfl⟩
  | cons r t ih =>
    simp only [List.foldl_cons]
    have h1 := dedupeRecord_sorted all provider r h
    have h2 := dedupeRecord_total all provider r
    obtain ⟨ha, hb⟩ := ih (dedupeRecord all provider r) h1
    refine ⟨ha, ?_⟩
    rw [hb, h2]
    simp only [List.length_cons]
    omega

/-- Claim C7: every CanonicalManga produced by `dedupeAndMerge` has its
source list sorted by non-increasing priority, and source records are only
ever appended — one per processed provider record, never removed — so the
total source count of the output equals the total record count of the
input batch. -/
theorem dedupe_sources_sorted_and_append_only (results : List ProviderBatch) :
    (∀ m ∈ dedupeAndMerge results,
      m.sources.Sorted (fun a b => b.priority ≤ a.priority)) ∧
    sourcesTotal (dedupeAndMerge results) = recordsTotal results := by
  rw [dedupeAndMerge]
  suffices hgen : ∀ (rs : List ProviderBatch) (all : List Manga),
      (∀ m ∈ all, m.sources.Sorted (fun a b => b.priority ≤ a.priority)) →
      (∀ m ∈ rs.foldl (fun all g => g.data.foldl (fun acc r => dedupeRecord acc g.provider r) all)
        all, m.sources.Sorted (fun a b => b.priority ≤ a.priority)) ∧
      sourcesTotal (rs.foldl (fun all g =>
        g.data.foldl (fun acc r => dedupeRecord acc g.provider r) all) all) =
        sourcesTotal all + recordsTotal rs by
    have := hgen results [] (by simp)
    simpa [sourcesTotal] using this
  intro rs
  induction rs with
  | nil => intro all h; exact ⟨h, by simp [recordsTotal]⟩
  | cons g t ih =>
    intro all h
    simp only [List.foldl_cons]
    obtain ⟨hg1, hg2⟩ := dedupeFold_sorted_total g.provider g.data all h
    obtain ⟨ht1, ht2⟩ := ih _ hg1
    refine ⟨ht1, ?_⟩
    rw [ht2, hg2]
    simp only [recordsTotal, List.map_cons, List.sum_cons]
    omega

/-- Claim C7 witness: the invariant applied to a concrete single-record
batch. -/
theorem dedupe_sources_sorted_witness :
    (providerResultToManga { id := "x", title := "T" } "comick").sources.Sorted
      (fun a b => b.priority ≤ a.priority) ∧
    sourcesTotal (dedupeAndMerge [⟨[{ id := "x", title := "T" }], "comick"⟩]) =
      recordsTotal [⟨[{ id := "x", title := "T" }], "comick"⟩] :=
  ⟨(dedupe_sources_sorted_and_append_only [⟨[{ id := "x", title := "T" }], "comick"⟩]).1
      (providerResultToManga { id := "x", title := "T" } "comick") (by decide),
   (dedupe_sources_sorted_and_append_only [⟨[{ id := "x", title := "T" }], "comick"⟩]).2⟩

/-! ### Claim C10: punctuation-only titles all normalize to `""` and merge -/

lemma calculateSimilarity_eq_one_of_titles_match (a b : ProviderSearchResult)
    (h : normalizeTitle a.title = normalizeTitle b.title) :
    calculateSimilarity a b = 1 := by
  have hjw : jaroWinkler (normalizeTitle b.title) (normalizeTitle b.title) = 1 := by
    rw [jaroWinkler, jaroWinklerL, if_pos rfl]
  simp only [calculateSimilarity, h, hjw]
  refine min_eq_right ?_
  repeat' split
  all_goals first
    | exact le_refl 1
    | exact le_max_left 1 _
    | exact le_add_of_le_of_nonneg (le_max_left 1 _) (by norm_num)
    | norm_num

lemma calculateSimilarity_eq_one (a b : ProviderSearchResult)
    (h1 : normalizeTitle a.title = "") (h2 : normalizeTitle b.title = "") :
    calculateSimilarity a b = 1 :=
  calculateSimilarity_eq_one_of_titles_match a b (h1.trans h2.symm)

/-- Claim C10: any two records whose titles normalize to the empty string
(e.g. titles of punctuation and whitespace only) have similarity exactly
1.0 — at or above the 0.85 threshold — so `dedupeAndMerge` merges them
into a single CanonicalManga no matter how unrelated their titles,
authors and years are. -/
theorem dedupe_merges_empty_normalized_titles (r1 r2 : ProviderSearchResult)
    (p1 p2 : String) (h1 : normalizeTitle r1.title = "") (h2 : normalizeTitle r2.title = "") :
    calculateSimilarity r1 r2 = 1 ∧ threshold ≤ calculateSimilarity r1 r2 ∧
    (dedupeAndMerge [⟨[r1], p1⟩, ⟨[r2], p2⟩]).length = 1 := by
  have hsim12 := calculateSimilarity_eq_one r1 r2 h1 h2
  refine ⟨hsim12, by rw [hsim12, threshold]; norm_num, ?_⟩
  have hstep1 : dedupeRecord [] p1 r1 = [providerResultToManga r1 p1] := rfl
  have htitle : (mangaAsSearchResult (providerResultToManga r1 p1)).title = r1.title := rfl
  have hsim : calculateSimilarity r2 (mangaAsSearchResult (providerResultToManga r1 p1)) = 1 :=
    calculateSimilarity_eq_one _ _ h2 (by rw [htitle]; exact h1)
  have hbest : bestMatch r2 [providerResultToManga r1 p1] 0 0 none = some 0 := by
    rw [bestMatch]
    simp only [hsim]
    rw [if_pos ⟨by norm_num, by rw [threshold]; norm_num⟩]
    rfl
  have hstep2 : dedupeRecord [providerResultToManga r1 p1] p2 r2 =
      [mergeStep p2 r2 (providerResultToManga r1 p1)] := by
    rw [dedupeRecord, hbest]
    rfl
  simp only [dedupeAndMerge, List.foldl_cons, List.foldl_nil, hstep1, hstep2]
  rfl

/-- Claim C10 witness: two entirely unrelated records whose titles are
punctuation/whitespace only. -/
theorem dedupe_merges_empty_normalized_titles_witness :
    calculateSimilarity { id := "a", title := "!!!", authors := some ["Alice"] }
        { id := "b", title := "??? ..", authors := some ["Bob"] } = 1 ∧
    threshold ≤ calculateSimilarity { id := "a", title := "!!!", authors := some ["Alice"] }
        { id := "b", title := "??? ..", authors := some ["Bob"] } ∧
    (dedupeAndMerge [⟨[{ id := "a", title := "!!!", authors := some ["Alice"] }], "mangadex"⟩,
        ⟨[{ id := "b", title := "??? ..", authors := some ["Bob"] }], "comick"⟩]).length = 1 :=
  dedupe_merges_empty_normalized_titles
    { id := "a", title := "!!!", authors := some ["Alice"] }
    { id := "b", title := "??? ..", authors := some ["Bob"] }
    "mangadex" "comick" (by decide) (by decide)

/-! ### Claim C1: the One Piece two-provider merge scenario -/

/-- Claim C1 (code divergence witness): in the merge of the scenario
batch, `getProviderPriority` returns 0 for `"mangadex"` (its table key is
misspelled `'mangadx'`) although the MangaDex adapter declares priority
100 — so the two records do merge into one entity, but the representative
fields come from the priority-90 comick record and the source list
priorities are `[90, 0]`, not `[100, 90]`. -/
theorem dedupe_one_piece_divergence :
    getProviderPriority "mangadex" = 0 ∧
    getProviderPriority "mangadx" = 100 ∧
    adapterPriority "mangadex" = 100 ∧
    (dedupeAndMerge onePieceBatch).length = 1 ∧
    (dedupeAndMerge onePieceBatch).map (fun m => (m.provider, m.providerId)) =
      [("comick", "ck1")] ∧
    (dedupeAndMerge onePieceBatch).map (fun m => m.sources.map (·.priority)) = [[90, 0]] ∧
    ([[(90 : ℤ), 0]] ≠ [[100, 90]]) := by
  have hstep1 : dedupeRecord [] "mangadex" onePieceMD = [providerResultToManga onePieceMD
      "mangadex"] := rfl
  have hsim : calculateSimilarity onePieceCK
      (mangaAsSearchResult (providerResultToManga onePieceMD "mangadex")) = 1 :=
    calculateSimilarity_eq_one_of_titles_match _ _ (by decide)
  have hbest : bestMatch onePieceCK [providerResultToManga onePieceMD "mangadex"] 0 0 none =
      some 0 := by
    rw [bestMatch]
    simp only [hsim]
    rw [if_pos ⟨by norm_num, by rw [threshold]; norm_num⟩]
    rfl
  have hstep2 : dedupeRecord [providerResultToManga onePieceMD "mangadex"] "comick" onePieceCK =
      [mergeStep "comick" onePieceCK (providerResultToManga onePieceMD "mangadex")] := by
    rw [dedupeRecord, hbest]
    rfl
  have hkey : dedupeAndMerge onePieceBatch =
      [mergeStep "comick" onePieceCK (providerResultToManga onePieceMD "mangadex")] := by
    simp only [dedupeAndMerge, onePieceBatch, List.foldl_cons, List.foldl_nil]
    rw [hstep1, hstep2]
  refine ⟨rfl, rfl, rfl, ?_, ?_, ?_, by decide⟩
  · rw [hkey]
    rfl
  · rw [hkey]
    rfl
  · rw [hkey]
    rfl

/-! ### Claim C8: Jaro–Winkler symmetry and reflexivity -/

lemma sharedLead_comm (s1 : List Char) : ∀ (s2 : List Char) (k : ℕ),
    sharedLead s1 s2 k = sharedLead s2 s1 k := by
  induction s1 with
  | nil => intro s2 k; cases s2 <;> cases k <;> rfl
  | cons a as ih =>
    intro s2 k
    cases s2 with
    | nil => cases k <;> rfl
    | cons b bs =>
      cases k with
      | zero => rfl
      | succ n =>
        rw [sharedLead, sharedLead]
        by_cases hab : a = b
        · rw [if_pos hab, if_pos hab.symm, ih]
        · rw [if_neg hab, if_neg fun h => hab h.symm]

lemma hamming_comm (x : List Char) : ∀ (y : List Char), hamming x y = hamming y x := by
  induction x with
  | nil => intro y; cases y <;> rfl
  | cons a xs ih =>
    intro y
    cases y with
    | nil => rfl
    | cons b ys =>
      rw [hamming, hamming, ih]
      congr 1
      by_cases hab : a = b
      · rw [if_pos hab, if_pos hab.symm]
      · rw [if_neg hab, if_neg fun h => hab h.symm]

lemma matchedChars_dropUnmatched (l : List (Char × Bool)) :
    matchedChars (dropUnmatched l) = matchedChars l := by
  induction l with
  | nil => rfl
  | cons p t ih =>
    obtain ⟨c, b⟩ := p
    cases b
    · simpa [dropUnmatched, matchedChars] using ih
    · rfl

lemma dropUnmatched_head_true (l : List (Char × Bool)) (c2 : Char) (b2 : Bool)
    (r2 : List (Char × Bool)) (h : dropUnmatched l = (c2, b2) :: r2) : b2 = true := by
  induction l with
  | nil => cases h
  | cons p t ih =>
    obtain ⟨c, b⟩ := p
    cases b
    · exact ih (by simpa [dropUnmatched] using h)
    · rw [dropUnmatched] at h
      cases h
      rfl

lemma countTrans_eq_hamming (l1 : List (Char × Bool)) : ∀ (l2 : List (Char × Bool)),
    countTrans l1 l2 = hamming (matchedChars l1) (matchedChars l2) := by
  induction l1 with
  | nil => intro l2; rfl
  | cons p t1 ih =>
    intro l2
    obtain ⟨c, b⟩ := p
    cases b
    · simp only [countTrans, matchedChars, List.filter_cons]
      simpa [matchedChars] using ih l2
    · rw [countTrans, ← matchedChars_dropUnmatched l2]
      cases hdu : dropUnmatched l2 with
      | nil =>
        simp [matchedChars, hamming]
      | cons q r2 =>
        obtain ⟨c2, b2⟩ := q
        have hb2 : b2 = true := dropUnmatched_head_true l2 c2 b2 r2 hdu
        subst hb2
        have hmc1 : matchedChars ((c, true) :: t1) = c :: matchedChars t1 := by
          simp [matchedChars]
        have hmc2 : matchedChars ((c2, true) :: r2) = c2 :: matchedChars r2 := by
          simp [matchedChars]
        rw [hmc1, hmc2, hamming]
        show (if c = c2 then 0 else 1) + countTrans t1 r2 = _
        rw [ih r2]

lemma count_set_true (l : List Bool) (j : ℕ) (h : l.get? j = some false) :
    (l.set j true).count true = l.count true + 1 := by
  induction l generalizing j with
  | nil => simp at h
  | cons b t ih =>
    cases j with
    | zero =>
      simp only [List.get?_cons_zero, Option.some_inj] at h
      subst h
      simp [List.count_cons]
    | succ n =>
      simp only [List.get?_cons_succ] at h
      simp only [List.set_cons_succ, List.count_cons, ih n h]
      omega

lemma findJ_unset (s2 : List Char) (s2M : List Bool) (c : Char) (lo hi j : ℕ)
    (h : findJ s2 s2M c lo hi = some j) :
    s2M.get? j = some false ∧ s2.get? j = some c := by
  have hp := List.find?_some h
  simpa using hp

lemma jwFold_count (s2 : List Char) (d : ℤ) (rest : List Char) : ∀ (i : ℕ) (s2M : List Bool),
    (jwFold s2 d rest i s2M).2.count true =
      s2M.count true + (jwFold s2 d rest i s2M).1.count true := by
  induction rest with
  | nil => intro i s2M; simp [jwFold]
  | cons c r ih =>
    intro i s2M
    rw [jwFold]
    cases hf : findJ s2 s2M c ((max 0 ((i : ℤ) - d)).toNat)
        ((min ((i : ℤ) + d + 1) (s2.length : ℤ)).toNat) with
    | some j =>
      simp only
      have hset := count_set_true s2M j (findJ_unset _ _ _ _ _ _ hf).1
      rw [ih (i + 1) (s2M.set j true), hset]
      simp [List.count_cons]
      omega
    | none =>
      simp only
      rw [ih (i + 1) s2M]
      simp [List.count_cons]

lemma jwFold_length1 (s2 : List Char) (d : ℤ) (rest : List Char) : ∀ (i : ℕ) (s2M : List Bool),
    (jwFold s2 d rest i s2M).1.length = rest.length := by
  induction rest with
  | nil => intro i s2M; rfl
  | cons c r ih =>
    intro i s2M
    rw [jwFold]
    cases hf : findJ s2 s2M c ((max 0 ((i : ℤ) - d)).toNat)
        ((min ((i : ℤ) + d + 1) (s2.length : ℤ)).toNat) with
    | some j => simp [ih]
    | none => simp [ih]

lemma jwFold_length2 (s2 : List Char) (d : ℤ) (rest : List Char) : ∀ (i : ℕ) (s2M : List Bool),
    (jwFold s2 d rest i s2M).2.length = s2M.length := by
  induction rest with
  | nil => intro i s2M; rfl
  | cons c r ih =>
    intro i s2M
    rw [jwFold]
    cases hf : findJ s2 s2M c ((max 0 ((i : ℤ) - d)).toNat)
        ((min ((i : ℤ) + d + 1) (s2.length : ℤ)).toNat) with
    | some j => simp [ih]
    | none => simp [ih]

lemma tpF_nil_right (d : ℤ) (P : List ℕ) : tpF d P [] = ([], []) := by
  cases P <;> simp [tpF]

lemma tpF_fst_subset (d : ℤ) (P Q : List ℕ) :
    ∀ x ∈ (tpF d P Q).1.map Prod.fst, x ∈ P := by
  induction P, Q using tpF.induct d with
  | case1 qs => simp [tpF]
  | case2 p ps => simp [tpF]
  | case3 p ps q qs hm ih =>
    intro x hx
    simp only [tpF, if_pos hm, List.map_cons, List.mem_cons] at hx
    rcases hx with rfl | hx
    · exact List.mem_cons_self _ _
    · exact List.mem_cons_of_mem _ (ih x hx)
  | case4 p ps q qs hm hq ih =>
    intro x hx
    simp only [tpF, if_neg hm, if_pos hq] at hx
    exact ih x hx
  | case5 p ps q qs hm hq hp ih =>
    intro x hx
    simp only [tpF, if_neg hm, if_neg hq, if_pos hp] at hx
    exact List.mem_cons_of_mem _ (ih x hx)
  | case6 p ps q qs hm hq hp ih =>
    intro x hx
    simp only [tpF, if_neg hm, if_neg hq, if_neg hp] at hx
    exact List.mem_cons_of_mem _ (ih x hx)

lemma tpF_swap (d : ℤ) (P Q : List ℕ) :
    (tpF d Q P).1 = (tpF d P Q).1.map Prod.swap := by
  induction P, Q using tpF.induct d with
  | case1 qs => rw [tpF_nil_right]; simp [tpF]
  | case2 p ps => rw [tpF_nil_right]; simp [tpF]
  | case3 p ps q qs hm ih =>
    have hm2 : (((q : ℤ) - p).natAbs : ℤ) ≤ d := by
      have : ((q : ℤ) - p).natAbs = ((p : ℤ) - q).natAbs := by omega
      rw [this]; exact hm
    simp only [tpF, if_pos hm, if_pos hm2, List.map_cons, ih]
    rfl
  | case4 p ps q qs hm hq ih =>
    have hm2 : ¬(((q : ℤ) - p).natAbs : ℤ) ≤ d := by
      have : ((q : ℤ) - p).natAbs = ((p : ℤ) - q).natAbs := by omega
      rw [this]; exact hm
    have hnp : ¬p < q := by omega
    rw [show tpF d (p :: ps) (q :: qs) = tpF d (p :: ps) qs by
        simp only [tpF, if_neg hm, if_pos hq],
      show tpF d (q :: qs) (p :: ps) = tpF d qs (p :: ps) by
        simp only [tpF, if_neg hm2, if_neg hnp, if_pos hq]]
    exact ih
  | case5 p ps q qs hm hq hp ih =>
    have hm2 : ¬(((q : ℤ) - p).natAbs : ℤ) ≤ d := by
      have : ((q : ℤ) - p).natAbs = ((p : ℤ) - q).natAbs := by omega
      rw [this]; exact hm
    rw [show tpF d (p :: ps) (q :: qs) = tpF d ps (q :: qs) by
        simp only [tpF, if_neg hm, if_neg hq, if_pos hp],
      show tpF d (q :: qs) (p :: ps) = tpF d (q :: qs) ps by
        simp only [tpF, if_neg hm2, if_pos hp]]
    exact ih
  | case6 p ps q qs hm hq hp ih =>
    have hm2 : ¬(((q : ℤ) - p).natAbs : ℤ) ≤ d := by
      have : ((q : ℤ) - p).natAbs = ((p : ℤ) - q).natAbs := by omega
      rw [this]; exact hm
    rw [show tpF d (p :: ps) (q :: qs) = tpF d ps qs by
        simp only [tpF, if_neg hm, if_neg hq, if_neg hp],
      show tpF d (q :: qs) (p :: ps) = tpF d qs ps by
        simp only [tpF, if_neg hm2, if_neg hp, if_neg hq]]
    exact ih

lemma tpF_append (d : ℤ) (P1 Q : List ℕ) : ∀ (P2 : List ℕ),
    tpF d (P1 ++ P2) Q =
      ((tpF d P1 Q).1 ++ (tpF d P2 (tpF d P1 Q).2).1, (tpF d P2 (tpF d P1 Q).2).2) := by
  induction P1, Q using tpF.induct d with
  | case1 qs => intro P2; simp [tpF]
  | case2 p ps =>
    intro P2
    rw [List.cons_append, tpF_nil_right, tpF_nil_right, tpF_nil_right]
    simp
  | case3 p ps q qs hm ih =>
    intro P2
    rw [List.cons_append]
    simp only [tpF, if_pos hm, ih P2, List.cons_append]
  | case4 p ps q qs hm hq ih =>
    intro P2
    rw [List.cons_append]
    simp only [tpF, if_neg hm, if_pos hq]
    rw [← List.cons_append]
    exact ih P2
  | case5 p ps q qs hm hq hp ih =>
    intro P2
    rw [List.cons_append]
    simp only [tpF, if_neg hm, if_neg hq, if_pos hp]
    exact ih P2
  | case6 p ps q qs hm hq hp ih =>
    intro P2
    rw [List.cons_append]
    simp only [tpF, if_neg hm, if_neg hq, if_neg hp]
    exact ih P2

lemma tpF_decomp (d : ℤ) (P Q : List ℕ) :
    ∃ pre, Q = pre ++ (tpF d P Q).2 ∧ ∀ x ∈ (tpF d P Q).1.map Prod.snd, x ∈ pre := by
  induction P, Q using tpF.induct d with
  | case1 qs => exact ⟨[], by simp [tpF]⟩
  | case2 p ps => exact ⟨[], by simp [tpF_nil_right]⟩
  | case3 p ps q qs hm ih =>
    obtain ⟨pre, hpre, hsub⟩ := ih
    refine ⟨q :: pre, ?_, ?_⟩
    · simp only [tpF, if_pos hm]
      rw [List.cons_append, ← hpre]
    · intro x hx
      simp only [tpF, if_pos hm, List.map_cons, List.mem_cons] at hx
      rcases hx with rfl | hx
      · exact List.mem_cons_self _ _
      · exact List.mem_cons_of_mem _ (hsub x hx)
  | case4 p ps q qs hm hq ih =>
    obtain ⟨pre, hpre, hsub⟩ := ih
    refine ⟨q :: pre, ?_, ?_⟩
    · simp only [tpF, if_neg hm, if_pos hq]
      rw [List.cons_append, ← hpre]
    · intro x hx
      simp only [tpF, if_neg hm, if_pos hq] at hx
      exact List.mem_cons_of_mem _ (hsub x hx)
  | case5 p ps q qs hm hq hp ih =>
    obtain ⟨pre, hpre, hsub⟩ := ih
    refine ⟨pre, ?_, ?_⟩
    · simpa only [tpF, if_neg hm, if_neg hq, if_pos hp] using hpre
    · intro x hx
      simp only [tpF, if_neg hm, if_neg hq, if_pos hp] at hx
      exact hsub x hx
  | case6 p ps q qs hm hq hp ih =>
    obtain ⟨pre, hpre, hsub⟩ := ih
    refine ⟨q :: pre, ?_, ?_⟩
    · simp only [tpF, if_neg hm, if_neg hq, if_neg hp]
      rw [List.cons_append, ← hpre]
    · intro x hx
      simp only [tpF, if_neg hm, if_neg hq, if_neg hp] at hx
      exact List.mem_cons_of_mem _ (hsub x hx)

lemma tpF_dead_bound (d B : ℤ) (P Q : List ℕ) (hP : ∀ p ∈ P, (p : ℤ) ≤ B) :
    ∀ x ∈ Q, x ∉ (tpF d P Q).2 → x ∉ (tpF d P Q).1.map Prod.snd → (x : ℤ) < B - d := by
  induction P, Q using tpF.induct d with
  | case1 qs =>
    intro x hx hrem _
    simp only [tpF] at hrem
    exact absurd hx hrem
  | case2 p ps =>
    intro x hx
    cases hx
  | case3 p ps q qs hm ih =>
    intro x hx hrem hsnd
    simp only [tpF, if_pos hm, List.map_cons, List.mem_cons] at hrem hsnd
    push_neg at hsnd
    rcases List.mem_cons.mp hx with rfl | hx
    · exact absurd rfl hsnd.1
    · exact ih (fun p2 h2 => hP p2 (List.mem_cons_of_mem p h2)) x hx hrem hsnd.2
  | case4 p ps q qs hm hq ih =>
    intro x hx hrem hsnd
    simp only [tpF, if_neg hm, if_pos hq] at hrem hsnd
    rcases List.mem_cons.mp hx with rfl | hx
    · have hpB : (p : ℤ) ≤ B := hP p (List.mem_cons_self p ps)
      omega
    · exact ih hP x hx hrem hsnd
  | case5 p ps q qs hm hq hp ih =>
    intro x hx hrem hsnd
    simp only [tpF, if_neg hm, if_neg hq, if_pos hp] at hrem hsnd
    exact ih (fun p2 h2 => hP p2 (List.mem_cons_of_mem p h2)) x hx hrem hsnd
  | case6 p ps q qs hm hq hp ih =>
    intro x hx hrem hsnd
    simp only [tpF, if_neg hm, if_neg hq, if_neg hp] at hrem hsnd
    rcases List.mem_cons.mp hx with rfl | hx
    · have hpB : (p : ℤ) ≤ B := hP p (List.mem_cons_self p ps)
      omega
    · exact ih (fun p2 h2 => hP p2 (List.mem_cons_of_mem p h2)) x hx hrem hsnd

lemma tpF_single_spec (d : ℤ) (p : ℕ) : ∀ (R : List ℕ), R.Sorted (· < ·) →
    ((tpF d [p] R).1 = [] ∧ ∀ x ∈ R, ¬((p : ℤ) - d ≤ x ∧ (x : ℤ) ≤ p + d)) ∨
    (∃ q, (tpF d [p] R).1 = [(p, q)] ∧ q ∈ R ∧ (p : ℤ) - d ≤ q ∧ (q : ℤ) ≤ p + d ∧
      ∀ x ∈ R, (p : ℤ) - d ≤ x → (x : ℤ) ≤ p + d → q ≤ x) := by
  intro R
  induction R with
  | nil =>
    intro _
    left
    exact ⟨by rw [tpF_nil_right], by simp⟩
  | cons q0 R2 ih =>
    intro hs
    rw [List.sorted_cons] at hs
    by_cases hm : (((p : ℤ) - q0).natAbs : ℤ) ≤ d
    · right
      refine ⟨q0, ?_, List.mem_cons_self _ _, by omega, by omega, ?_⟩
      · simp only [tpF, if_pos hm, tpF_nil_right]
      · intro x hx _ _
        rcases List.mem_cons.mp hx with rfl | hx
        · exact le_refl x
        · exact le_of_lt (hs.1 x hx)
    · by_cases hq : q0 < p
      · have hstep : tpF d [p] (q0 :: R2) = tpF d [p] R2 := by
          simp only [tpF, if_neg hm, if_pos hq]
        rcases ih hs.2 with ⟨h1, h2⟩ | ⟨q, h1, h2, h3, h4, h5⟩
        · left
          rw [hstep]
          refine ⟨h1, ?_⟩
          intro x hx
          rcases List.mem_cons.mp hx with rfl | hx
          · omega
          · exact h2 x hx
        · right
          rw [hstep]
          refine ⟨q, h1, List.mem_cons_of_mem _ h2, h3, h4, ?_⟩
          intro x hx hx1 hx2
          rcases List.mem_cons.mp hx with rfl | hx
          · omega
          · exact h5 x hx hx1 hx2
      · by_cases hp : p < q0
        · left
          have hstep : tpF d [p] (q0 :: R2) = ([], q0 :: R2) := by
            simp only [tpF, if_neg hm, if_neg hq, if_pos hp]
          refine ⟨by rw [hstep], ?_⟩
          intro x hx
          rcases List.mem_cons.mp hx with rfl | hx
          · omega
          · have := hs.1 x hx
            omega
        · left
          have hstep : tpF d [p] (q0 :: R2) = ([], R2) := by
            simp only [tpF, if_neg hm, if_neg hq, if_neg hp]
          refine ⟨by rw [hstep], ?_⟩
          intro x hx
          omega

lemma mem_posnsLt (c : Char) (n : ℕ) (s : List Char) (j : ℕ) :
    j ∈ posnsLt c n s ↔ j < n ∧ s.get? j = some c := by
  simp [posnsLt, List.mem_filter, List.mem_range]

lemma get?_lt_length {s : List Char} {j : ℕ} {c : Char} (h : s.get? j = some c) :
    j < s.length := by
  by_contra hh
  rw [List.get?_eq_none.mpr (le_of_not_lt hh)] at h
  cases h

lemma mem_posns (c : Char) (s : List Char) (j : ℕ) :
    j ∈ posns c s ↔ s.get? j = some c := by
  rw [posns, mem_posnsLt]
  constructor
  · exact fun h => h.2
  · intro h
    exact ⟨get?_lt_length h, h⟩

lemma posnsLt_sorted (c : Char) (n : ℕ) (s : List Char) :
    (posnsLt c n s).Sorted (· < ·) := by
  refine List.Pairwise.filter _ ?_
  rw [List.range_eq_range']
  exact List.pairwise_lt_range' 0 n 1

lemma posns_sorted (c : Char) (s : List Char) : (posns c s).Sorted (· < ·) :=
  posnsLt_sorted c s.length s

lemma posnsLt_lt (c : Char) (n : ℕ) (s : List Char) : ∀ x ∈ posnsLt c n s, x < n := by
  intro x hx
  exact ((mem_posnsLt c n s x).mp hx).1

lemma posnsLt_succ_self {s : List Char} {n : ℕ} {c : Char} (h : s.get? n = some c) :
    posnsLt c (n + 1) s = posnsLt c n s ++ [n] := by
  have h2 : s[n]? = some c := (List.get?_eq_getElem? s n).symm.trans h
  simp [posnsLt, List.range_succ, List.filter_append, h2]

lemma posnsLt_succ_ne {s : List Char} {n : ℕ} {c0 c : Char} (h : s.get? n = some c0)
    (hne : c ≠ c0) : posnsLt c (n + 1) s = posnsLt c n s := by
  have h2 : s[n]? = some c0 := (List.get?_eq_getElem? s n).symm.trans h
  have hbeq : ¬s[n]? = some c := by
    rw [h2]
    simp only [Option.some_inj]
    exact fun hh => hne hh.symm
  simp [posnsLt, List.range_succ, List.filter_append, hbeq]

lemma posnsLt_of_ge (c : Char) (s : List Char) {n : ℕ} (h : s.length ≤ n) :
    posnsLt c n s = posns c s := by
  rw [posns]
  induction n with
  | zero =>
    have : s.length = 0 := by omega
    rw [this]
  | succ k ih =>
    rcases Nat.lt_or_ge s.length (k + 1) with hk | hk
    · have hk2 : s.length ≤ k := by omega
      have hnone : s[k]? = none := by
        rw [← List.get?_eq_getElem?]
        exact List.get?_eq_none.mpr hk2
      have : posnsLt c (k + 1) s = posnsLt c k s := by
        simp [posnsLt, List.range_succ, List.filter_append, hnone]
      rw [this, ih hk2]
    · have : s.length = k + 1 := by omega
      rw [this]

lemma find?_range'_eq_some (p : ℕ → Bool) : ∀ (n lo j : ℕ),
    ((List.range' lo n).find? p = some j ↔
      (lo ≤ j ∧ j < lo + n ∧ p j = true ∧ ∀ j2, lo ≤ j2 → j2 < j → p j2 = false)) := by
  intro n
  induction n with
  | zero =>
    intro lo j
    simp only [List.range'_zero, List.find?_nil]
    constructor
    · intro h; cases h
    · intro ⟨h1, h2, _, _⟩; omega
  | succ k ih =>
    intro lo j
    rw [List.range'_succ]
    by_cases hlo : p lo
    · rw [List.find?_cons_of_pos _ hlo]
      constructor
      · rintro ⟨rfl⟩
        exact ⟨le_refl _, by omega, hlo, fun j2 h1 h2 => by omega⟩
      · rintro ⟨h1, h2, h3, h4⟩
        rcases Nat.eq_or_lt_of_le h1 with rfl | hlt
        · rfl
        · exact absurd hlo (by rw [h4 lo (le_refl _) hlt]; simp)
    · rw [List.find?_cons_of_neg _ hlo, ih (lo + 1) j]
      have hlo2 : p lo = false := by
        cases hp : p lo
        · rfl
        · exact absurd hp hlo
      constructor
      · rintro ⟨h1, h2, h3, h4⟩
        refine ⟨by omega, by omega, h3, fun j2 ha hb => ?_⟩
        rcases Nat.eq_or_lt_of_le ha with rfl | hlt
        · exact hlo2
        · exact h4 j2 hlt hb
      · rintro ⟨h1, h2, h3, h4⟩
        have hne : j ≠ lo := by
          rintro rfl
          rw [h3] at hlo2
          cases hlo2
        exact ⟨by omega, by omega, h3, fun j2 ha hb => h4 j2 (by omega) hb⟩

lemma find?_range'_eq_none (p : ℕ → Bool) (n lo : ℕ) :
    ((List.range' lo n).find? p = none ↔ ∀ j, lo ≤ j → j < lo + n → p j = false) := by
  rw [List.find?_eq_none]
  constructor
  · intro h j h1 h2
    have hj : j ∈ List.range' lo n := by
      rw [List.mem_range'_1]
      exact ⟨h1, by omega⟩
    cases hp : p j
    · rfl
    · exact absurd hp (h j hj)
  · intro h j hj
    rw [List.mem_range'_1] at hj
    rw [h j hj.1 (by omega)]
    simp

lemma findJ_eq_some_iff (s2 : List Char) (s2M : List Bool) (c : Char) (lo hi j : ℕ) :
    findJ s2 s2M c lo hi = some j ↔
      (lo ≤ j ∧ j < hi ∧ s2M.get? j = some false ∧ s2.get? j = some c ∧
        ∀ j2, lo ≤ j2 → j2 < j → ¬(s2M.get? j2 = some false ∧ s2.get? j2 = some c)) := by
  rw [findJ, find?_range'_eq_some]
  constructor
  · rintro ⟨h1, h2, h3, h4⟩
    simp only [Bool.and_eq_true, beq_iff_eq] at h3
    refine ⟨h1, by omega, h3.1, h3.2, fun j2 ha hb => ?_⟩
    have := h4 j2 ha hb
    simp only [Bool.and_eq_true, beq_iff_eq] at this
    intro ⟨hc1, hc2⟩
    rcases Bool.and_eq_false_iff.mp this with h | h <;>
      simp_all
  · rintro ⟨h1, h2, h3, h4, h5⟩
    refine ⟨h1, by omega, by simp [← List.get?_eq_getElem?, h3, h4], fun j2 ha hb => ?_⟩
    have := h5 j2 ha hb
    rw [Bool.and_eq_false_iff]
    by_cases hc1 : s2M.get? j2 = some false
    · right
      by_cases hc2 : s2.get? j2 = some c
      · exact absurd ⟨hc1, hc2⟩ this
      · simpa using hc2
    · left
      simpa using hc1

lemma findJ_eq_none_iff (s2 : List Char) (s2M : List Bool) (c : Char) (lo hi : ℕ) :
    findJ s2 s2M c lo hi = none ↔
      ∀ j, lo ≤ j → j < hi → ¬(s2M.get? j = some false ∧ s2.get? j = some c) := by
  rw [findJ, find?_range'_eq_none]
  constructor
  · intro h j ha hb
    have := h j ha (by omega)
    rw [Bool.and_eq_false_iff] at this
    intro ⟨hc1, hc2⟩
    rcases this with h2 | h2 <;> simp_all
  · intro h j ha hb
    have := h j ha (by omega)
    rw [Bool.and_eq_false_iff]
    by_cases hc1 : s2M.get? j = some false
    · right
      by_cases hc2 : s2.get? j = some c
      · exact absurd ⟨hc1, hc2⟩ this
      · simpa using hc2
    · left
      simpa using hc1

lemma posnsLt_split (c : Char) (s : List Char) {n m : ℕ} (h : n ≤ m) :
    ∃ suf, posnsLt c m s = posnsLt c n s ++ suf ∧ ∀ x ∈ suf, n ≤ x := by
  have hr : List.range m = List.range n ++ List.range' n (m - n) := by
    rw [List.range_eq_range', List.range_eq_range']
    rw [show m = (m - n) + n by omega, ← List.range'_append 0 n (m - n) 1]
    simp
  refine ⟨(List.range' n (m - n)).filter (fun j => s.get? j == some c), ?_, ?_⟩
  · rw [posnsLt, posnsLt, hr, List.filter_append]
  · intro x hx
    rw [List.mem_filter, List.mem_range'_1] at hx
    exact hx.1.1

lemma jw_step_spec (s1 s2 : List Char) (d : ℤ) (i : ℕ) (s2M : List Bool) (c0 : Char)
    (hlen : s2M.length = s2.length)
    (hinv : ∀ j c, s2.get? j = some c →
      (s2M.get? j = some true ↔
        j ∈ (tpF d (posnsLt c i s1) (posns c s2)).1.map Prod.snd)) :
    (∀ j, findJ s2 s2M c0 ((max 0 ((i : ℤ) - d)).toNat)
        ((min ((i : ℤ) + d + 1) (s2.length : ℤ)).toNat) = some j →
      (tpF d [i] (tpF d (posnsLt c0 i s1) (posns c0 s2)).2).1 = [(i, j)] ∧
      s2.get? j = some c0 ∧ s2M.get? j = some false) ∧
    (findJ s2 s2M c0 ((max 0 ((i : ℤ) - d)).toNat)
        ((min ((i : ℤ) + d + 1) (s2.length : ℤ)).toNat) = none →
      (tpF d [i] (tpF d (posnsLt c0 i s1) (posns c0 s2)).2).1 = []) := by
  set lo := (max 0 ((i : ℤ) - d)).toNat with hlo_def
  set hi := (min ((i : ℤ) + d + 1) (s2.length : ℤ)).toNat with hhi_def
  set Q := posns c0 s2 with hQ_def
  set P := posnsLt c0 i s1 with hP_def
  obtain ⟨pre, hpre, hsub⟩ := tpF_decomp d P Q
  have hQsorted : Q.Sorted (· < ·) := posns_sorted c0 s2
  have hremsorted : (tpF d P Q).2.Sorted (· < ·) := by
    have := hpre ▸ hQsorted
    exact (List.pairwise_append.mp this).2.1
  have hQnodup : Q.Nodup := hQsorted.nodup
  have hdisj : pre.Disjoint (tpF d P Q).2 := (List.nodup_append.mp (hpre ▸ hQnodup)).2.2
  have hPlt : ∀ p ∈ P, (p : ℤ) ≤ (i : ℤ) - 1 := by
    intro p hp
    have := posnsLt_lt c0 i s1 p hp
    omega
  have helig1 : ∀ j, lo ≤ j → j < hi → s2M.get? j = some false → s2.get? j = some c0 →
      j ∈ (tpF d P Q).2 ∧ (i : ℤ) - d ≤ j ∧ (j : ℤ) ≤ i + d := by
    intro j h1 h2 h3 h4
    have hwin1 : (i : ℤ) - d ≤ j := by omega
    have hwin2 : (j : ℤ) ≤ i + d := by omega
    have hjQ : j ∈ Q := (mem_posns c0 s2 j).mpr h4
    have hnsnd : j ∉ (tpF d P Q).1.map Prod.snd := by
      intro hmem
      have := (hinv j c0 h4).mpr hmem
      rw [h3] at this
      cases this
    refine ⟨?_, hwin1, hwin2⟩
    by_contra hrem
    have := tpF_dead_bound d ((i : ℤ) - 1) P Q hPlt j hjQ hrem hnsnd
    omega
  have helig2 : ∀ j ∈ (tpF d P Q).2, (i : ℤ) - d ≤ j → (j : ℤ) ≤ i + d →
      lo ≤ j ∧ j < hi ∧ s2M.get? j = some false ∧ s2.get? j = some c0 := by
    intro j hjrem hw1 hw2
    have hjQ : j ∈ Q := by
      rw [hpre]
      exact List.mem_append_right pre hjrem
    have h4 : s2.get? j = some c0 := (mem_posns c0 s2 j).mp hjQ
    have hjlen : j < s2.length := get?_lt_length h4
    have hnsnd : j ∉ (tpF d P Q).1.map Prod.snd := by
      intro hmem
      exact hdisj (hsub j hmem) hjrem
    have h3 : s2M.get? j = some false := by
      cases hb : s2M.get? j with
      | none =>
        have := List.get?_eq_none.mp hb
        omega
      | some b =>
        cases b
        · rfl
        · exact absurd ((hinv j c0 h4).mp hb) hnsnd
    exact ⟨by omega, by omega, h3, h4⟩
  have hsingle := tpF_single_spec d i (tpF d P Q).2 hremsorted
  constructor
  · intro j hf
    rw [findJ_eq_some_iff] at hf
    obtain ⟨h1, h2, h3, h4, h5⟩ := hf
    obtain ⟨hjrem, hw1, hw2⟩ := helig1 j h1 h2 h3 h4
    rcases hsingle with ⟨_, hno⟩ | ⟨q, hpair, hqrem, hq1, hq2, hqmin⟩
    · exact absurd ⟨hw1, hw2⟩ (hno j hjrem)
    · have hqj : q ≤ j := hqmin j hjrem hw1 hw2
      have hjq : ¬q < j := by
        intro hlt
        obtain ⟨hb1, hb2, hb3, hb4⟩ := helig2 q hqrem hq1 hq2
        exact h5 q hb1 hlt ⟨hb3, hb4⟩
      have : q = j := by omega
      subst this
      exact ⟨hpair, h4, h3⟩
  · intro hf
    rw [findJ_eq_none_iff] at hf
    rcases hsingle with ⟨hp, _⟩ | ⟨q, hpair, hqrem, hq1, hq2, hqmin⟩
    · exact hp
    · obtain ⟨hb1, hb2, hb3, hb4⟩ := helig2 q hqrem hq1 hq2
      exact absurd ⟨hb3, hb4⟩ (hf q hb1 hb2)

lemma mem_fst_full_iff_step (s1 s2 : List Char) (d : ℤ) (i : ℕ) (c0 : Char)
    (hc0 : s1.get? i = some c0) :
    i ∈ (tpF d (posns c0 s1) (posns c0 s2)).1.map Prod.fst ↔
      (tpF d [i] (tpF d (posnsLt c0 i s1) (posns c0 s2)).2).1 ≠ [] := by
  have hla : i < s1.length := get?_lt_length hc0
  obtain ⟨suf, hsplit, hsuf⟩ := posnsLt_split c0 s1 (n := i + 1) (m := s1.length) (by omega)
  rw [show posns c0 s1 = posnsLt c0 s1.length s1 from rfl, hsplit, posnsLt_succ_self hc0]
  set P := posnsLt c0 i s1 with hP_def
  set Q := posns c0 s2 with hQ_def
  rw [tpF_append d (P ++ [i]) Q suf, tpF_append d P Q [i]]
  simp only [List.map_append, List.mem_append]
  have hnot1 : i ∉ (tpF d P Q).1.map Prod.fst := by
    intro hmem
    have := tpF_fst_subset d P Q i hmem
    have := posnsLt_lt c0 i s1 i this
    omega
  have hnot3 : i ∉ (tpF d suf (tpF d [i] (tpF d P Q).2).2).1.map Prod.fst := by
    intro hmem
    have := tpF_fst_subset d suf _ i hmem
    have := hsuf i this
    omega
  constructor
  · rintro ((h | h) | h)
    · exact absurd h hnot1
    · intro hnil
      rw [hnil] at h
      cases h
    · exact absurd h hnot3
  · intro hne
    cases hstep : (tpF d [i] (tpF d P Q).2).1 with
    | nil => exact absurd hstep hne
    | cons pr rest =>
      have hfst : pr.1 = i := by
        have : pr.1 ∈ (tpF d [i] (tpF d P Q).2).1.map Prod.fst := by
          rw [hstep]
          simp
        have := tpF_fst_subset d [i] _ pr.1 this
        simpa using this
      left
      right
      rw [List.map_cons, hfst]
      exact List.mem_cons_self _ _

lemma jwFold_characterization (s1 s2 : List Char) (d : ℤ) : ∀ (rest : List Char) (i : ℕ)
    (s2M : List Bool),
    s1.drop i = rest →
    s2M.length = s2.length →
    (∀ j c, s2.get? j = some c →
      (s2M.get? j = some true ↔
        j ∈ (tpF d (posnsLt c i s1) (posns c s2)).1.map Prod.snd)) →
    (∀ k c, s1.get? (i + k) = some c →
      ((jwFold s2 d rest i s2M).1.get? k = some true ↔
        (i + k) ∈ (tpF d (posns c s1) (posns c s2)).1.map Prod.fst)) ∧
    (∀ j c, s2.get? j = some c →
      ((jwFold s2 d rest i s2M).2.get? j = some true ↔
        j ∈ (tpF d (posns c s1) (posns c s2)).1.map Prod.snd)) := by
  intro rest
  induction rest with
  | nil =>
    intro i s2M hdrop hlen hinv
    have hi : s1.length ≤ i := by
      have := congrArg List.length hdrop
      simp only [List.length_drop, List.length_nil] at this
      omega
    constructor
    · intro k c hk
      have := get?_lt_length hk
      omega
    · intro j c hj
      have := hinv j c hj
      rwa [posnsLt_of_ge c s1 hi] at this
  | cons c0 rest2 ih =>
    intro i s2M hdrop hlen hinv
    have hc0 : s1.get? i = some c0 := by
      have h1 := List.head?_drop s1 i
      rw [hdrop] at h1
      rw [List.get?_eq_getElem?]
      exact h1.symm
    have hdrop2 : s1.drop (i + 1) = rest2 := by
      rw [← List.tail_drop, hdrop]
      rfl
    obtain ⟨hstep_some, hstep_none⟩ := jw_step_spec s1 s2 d i s2M c0 hlen hinv
    rw [jwFold]
    cases hf : findJ s2 s2M c0 ((max 0 ((i : ℤ) - d)).toNat)
        ((min ((i : ℤ) + d + 1) (s2.length : ℤ)).toNat) with
    | some j =>
      obtain ⟨hpair, hjc, hjflag⟩ := hstep_some j hf
      have hlen2 : (s2M.set j true).length = s2.length := by
        rw [List.length_set]
        exact hlen
      have hinv2 : ∀ j2 c, s2.get? j2 = some c →
          ((s2M.set j true).get? j2 = some true ↔
            j2 ∈ (tpF d (posnsLt c (i + 1) s1) (posns c s2)).1.map Prod.snd) := by
        intro j2 c hj2
        by_cases hcc : c = c0
        · subst hcc
          rw [posnsLt_succ_self hc0, tpF_append]
          simp only [hpair, List.map_append, List.mem_append, List.map_cons, List.map_nil]
          by_cases hjj : j2 = j
          · subst hjj
            have hjlen : j2 < s2M.length := by
              rw [hlen]
              exact get?_lt_length hj2
            constructor
            · intro _
              right
              simp
            · intro _
              rw [List.get?_set_eq, hjflag]
              rfl
          · rw [List.get?_set_ne true s2M (fun h => hjj h.symm)]
            rw [hinv j2 c hj2]
            constructor
            · intro h
              exact Or.inl h
            · rintro (h | h)
              · exact h
              · simp only [List.mem_singleton] at h
                exact absurd h hjj
        · have hne : posnsLt c (i + 1) s1 = posnsLt c i s1 := posnsLt_succ_ne hc0 hcc
          rw [hne]
          have hjj : j2 ≠ j := by
            intro h
            subst h
            rw [hj2] at hjc
            exact hcc (Option.some_inj.mp hjc)
          rw [List.get?_set_ne true s2M (fun h => hjj h.symm)]
          exact hinv j2 c hj2
      obtain ⟨ihA, ihB⟩ := ih (i + 1) (s2M.set j true) hdrop2 hlen2 hinv2
      constructor
      · intro k c hk
        cases k with
        | zero =>
          rw [Nat.add_zero] at hk
          have hcc : c = c0 := Option.some_inj.mp (hk.symm.trans hc0)
          subst hcc
          simp only [Nat.add_zero, List.get?_cons_zero]
          rw [mem_fst_full_iff_step s1 s2 d i c hc0, hpair]
          simp
        | succ k2 =>
          simp only [List.get?_cons_succ]
          have := ihA k2 c (by rw [show i + 1 + k2 = i + (k2 + 1) by omega] at *; exact hk)
          rw [show i + 1 + k2 = i + (k2 + 1) by omega] at this
          exact this
      · exact ihB
    | none =>
      have hpair := hstep_none hf
      have hinv2 : ∀ j2 c, s2.get? j2 = some c →
          (s2M.get? j2 = some true ↔
            j2 ∈ (tpF d (posnsLt c (i + 1) s1) (posns c s2)).1.map Prod.snd) := by
        intro j2 c hj2
        by_cases hcc : c = c0
        · subst hcc
          rw [posnsLt_succ_self hc0, tpF_append]
          simp only [hpair, List.map_append, List.mem_append, List.map_nil]
          rw [hinv j2 c hj2]
          constructor
          · intro h
            exact Or.inl h
          · rintro (h | h)
            · exact h
            · cases h
        · rw [posnsLt_succ_ne hc0 hcc]
          exact hinv j2 c hj2
      obtain ⟨ihA, ihB⟩ := ih (i + 1) s2M hdrop2 hlen hinv2
      constructor
      · intro k c hk
        cases k with
        | zero =>
          rw [Nat.add_zero] at hk
          have hcc : c = c0 := Option.some_inj.mp (hk.symm.trans hc0)
          subst hcc
          simp only [Nat.add_zero, List.get?_cons_zero]
          constructor
          · intro h
            exact absurd h (by simp)
          · intro h
            rw [mem_fst_full_iff_step s1 s2 d i c hc0, hpair] at h
            exact (h rfl).elim
        | succ k2 =>
          simp only [List.get?_cons_succ]
          have := ihA k2 c (by rw [show i + 1 + k2 = i + (k2 + 1) by omega] at *; exact hk)
          rw [show i + 1 + k2 = i + (k2 + 1) by omega] at this
          exact this
      · exact ihB

lemma replicate_false_no_true (n j : ℕ) : ¬(List.replicate n false).get? j = some true := by
  rw [List.get?_eq_getElem?]
  simp [List.getElem?_replicate]

lemma jwFold_swap (s1 s2 : List Char) (d : ℤ) :
    (jwFold s1 d s2 0 (List.replicate s1.length false)).1 =
      (jwFold s2 d s1 0 (List.replicate s2.length false)).2 ∧
    (jwFold s1 d s2 0 (List.replicate s1.length false)).2 =
      (jwFold s2 d s1 0 (List.replicate s2.length false)).1 := by
  have hinv0 : ∀ (t1 t2 : List Char) (j : ℕ) (c : Char), t2.get? j = some c →
      ((List.replicate t2.length false).get? j = some true ↔
        j ∈ (tpF d (posnsLt c 0 t1) (posns c t2)).1.map Prod.snd) := by
    intro t1 t2 j c _
    constructor
    · intro h
      exact absurd h (replicate_false_no_true _ _)
    · intro h
      have hnil : posnsLt c 0 t1 = [] := rfl
      rw [hnil] at h
      simp only [tpF, List.map_nil] at h
      cases h
  obtain ⟨hA12, hB12⟩ := jwFold_characterization s1 s2 d s1 0
    (List.replicate s2.length false) rfl (by simp) (hinv0 s1 s2)
  obtain ⟨hA21, hB21⟩ := jwFold_characterization s2 s1 d s2 0
    (List.replicate s1.length false) rfl (by simp) (hinv0 s2 s1)
  have hget : ∀ (l : List Bool) (j : ℕ), j < l.length → ∃ b, l.get? j = some b := by
    intro l j hj
    cases hb : l.get? j with
    | none =>
      have := List.get?_eq_none.mp hb
      omega
    | some b => exact ⟨b, rfl⟩
  have hgetc : ∀ (t : List Char) (j : ℕ), j < t.length → ∃ c, t.get? j = some c := by
    intro t j hj
    cases hc : t.get? j with
    | none =>
      have := List.get?_eq_none.mp hc
      omega
    | some c => exact ⟨c, rfl⟩
  have hswapF : ∀ (c : Char) (j : ℕ),
      j ∈ (tpF d (posns c s2) (posns c s1)).1.map Prod.fst ↔
        j ∈ (tpF d (posns c s1) (posns c s2)).1.map Prod.snd := by
    intro c j
    rw [tpF_swap d (posns c s1) (posns c s2), List.map_map]
    constructor <;> intro h <;> simpa [Function.comp_def] using h
  have hswapS : ∀ (c : Char) (j : ℕ),
      j ∈ (tpF d (posns c s2) (posns c s1)).1.map Prod.snd ↔
        j ∈ (tpF d (posns c s1) (posns c s2)).1.map Prod.fst := by
    intro c j
    rw [tpF_swap d (posns c s1) (posns c s2), List.map_map]
    constructor <;> intro h <;> simpa [Function.comp_def] using h
  constructor
  · refine List.ext fun j => ?_
    have hl1 : (jwFold s1 d s2 0 (List.replicate s1.length false)).1.length = s2.length :=
      jwFold_length1 s1 d s2 0 _
    have hl2 : (jwFold s2 d s1 0 (List.replicate s2.length false)).2.length = s2.length := by
      rw [jwFold_length2]
      simp
    rcases Nat.lt_or_ge j s2.length with hj | hj
    · obtain ⟨c, hc⟩ := hgetc s2 j hj
      obtain ⟨b1, hb1⟩ := hget _ j (by omega :
        j < (jwFold s1 d s2 0 (List.replicate s1.length false)).1.length)
      obtain ⟨b2, hb2⟩ := hget _ j (by omega :
        j < (jwFold s2 d s1 0 (List.replicate s2.length false)).2.length)
      have hiff1 := hA21 j c (by simpa using hc)
      rw [Nat.zero_add, hb1] at hiff1
      have hiff2 := hB12 j c hc
      rw [hb2] at hiff2
      rw [hb1, hb2]
      have : b1 = b2 := by
        cases b1 <;> cases b2
        · rfl
        · exact absurd (hiff1.mpr ((hswapF c j).mpr (hiff2.mp rfl))) (by simp)
        · exact absurd (hiff2.mpr ((hswapF c j).mp (hiff1.mp rfl))) (by simp)
        · rfl
      rw [this]
    · rw [List.get?_eq_none.mpr (by omega), List.get?_eq_none.mpr (by omega)]
  · refine List.ext fun j => ?_
    have hl1 : (jwFold s1 d s2 0 (List.replicate s1.length false)).2.length = s1.length := by
      rw [jwFold_length2]
      simp
    have hl2 : (jwFold s2 d s1 0 (List.replicate s2.length false)).1.length = s1.length :=
      jwFold_length1 s2 d s1 0 _
    rcases Nat.lt_or_ge j s1.length with hj | hj
    · obtain ⟨c, hc⟩ := hgetc s1 j hj
      obtain ⟨b1, hb1⟩ := hget _ j (by omega :
        j < (jwFold s1 d s2 0 (List.replicate s1.length false)).2.length)
      obtain ⟨b2, hb2⟩ := hget _ j (by omega :
        j < (jwFold s2 d s1 0 (List.replicate s2.length false)).1.length)
      have hiff1 := hB21 j c (by simpa using hc)
      rw [hb1] at hiff1
      have hiff2 := hA12 j c (by simpa using hc)
      rw [Nat.zero_add, hb2] at hiff2
      rw [hb1, hb2]
      have : b1 = b2 := by
        cases b1 <;> cases b2
        · rfl
        · exact absurd (hiff1.mpr ((hswapS c j).mpr (hiff2.mp rfl))) (by simp)
        · exact absurd (hiff2.mpr ((hswapS c j).mp (hiff1.mp rfl))) (by simp)
        · rfl
      rw [this]
    · rw [List.get?_eq_none.mpr (by omega), List.get?_eq_none.mpr (by omega)]

lemma jaroWinklerL_comm (s1 s2 : List Char) : jaroWinklerL s1 s2 = jaroWinklerL s2 s1 := by
  by_cases h12 : s1 = s2
  · rw [h12]
  · have h21 : ¬s2 = s1 := fun h => h12 h.symm
    simp only [jaroWinklerL, if_neg h12, if_neg h21]
    by_cases hz : s1.length = 0 ∨ s2.length = 0
    · rw [if_pos hz, if_pos (Or.symm hz)]
    · rw [if_neg hz, if_neg fun h => hz (Or.symm h)]
      have hd : matchDistance s2.length s1.length = matchDistance s1.length s2.length := by
        rw [matchDistance, matchDistance, max_comm]
      rw [hd]
      set d := matchDistance s1.length s2.length
      obtain ⟨hsw1, hsw2⟩ := jwFold_swap s1 s2 d
      rw [hsw1, hsw2]
      have hm : (jwFold s2 d s1 0 (List.replicate s2.length false)).2.count true =
          (jwFold s2 d s1 0 (List.replicate s2.length false)).1.count true := by
        have := jwFold_count s2 d s1 0 (List.replicate s2.length false)
        simpa [List.count_replicate] using this
      have ht : countTrans (s2.zip (jwFold s2 d s1 0 (List.replicate s2.length false)).2)
            (s1.zip (jwFold s2 d s1 0 (List.replicate s2.length false)).1) =
          countTrans (s1.zip (jwFold s2 d s1 0 (List.replicate s2.length false)).1)
            (s2.zip (jwFold s2 d s1 0 (List.replicate s2.length false)).2) := by
        rw [countTrans_eq_hamming, countTrans_eq_hamming, hamming_comm]
      have hp : sharedLead s2 s1 4 = sharedLead s1 s2 4 := sharedLead_comm s2 s1 4
      rw [hm, ht, hp]
      by_cases hm0 : (jwFold s2 d s1 0 (List.replicate s2.length false)).1.count true = 0
      · rw [if_pos hm0, if_pos hm0]
      · rw [if_neg hm0, if_neg hm0]
        ring

/-- Claim C8: the Jaro–Winkler similarity is symmetric, and equals 1.0 on
every non-empty string compared with itself (the `s1 === s2` early
return). -/
theorem jaroWinkler_symm_and_refl :
    (∀ a b : String, jaroWinkler a b = jaroWinkler b a) ∧
    (∀ a : String, a ≠ "" → jaroWinkler a a = 1) := by
  constructor
  · intro a b
    rw [jaroWinkler, jaroWinkler]
    exact jaroWinklerL_comm a.data b.data
  · intro a _
    rw [jaroWinkler, jaroWinklerL, if_pos rfl]

/-- Claim C8 witness: symmetry and reflexivity at concrete strings. -/
theorem jaroWinkler_symm_and_refl_witness :
    jaroWinkler "martha" "marhta" = jaroWinkler "marhta" "martha" ∧
    ("dwayne" : String) ≠ "" ∧ jaroWinkler "dwayne" "dwayne" = 1 :=
  ⟨jaroWinkler_symm_and_refl.1 "martha" "marhta", by decide,
   jaroWinkler_symm_and_refl.2 "dwayne" (by decide)⟩

/-- Claim C3 witness: three consecutive 429 responses are all consumed by
retries. -/
theorem fetchJson_unbounded_retry_witness :
    fetchJson (List.replicate 3 (HttpResponse.err 429)) = FetchOutcome.exhausted ∧
    attemptsUsed (List.replicate 3 (HttpResponse.err 429)) = 3 :=
  fetchJson_unbounded_retry 3

/-- Claim C4 witness: the amended cache-key statement at concrete
arguments. -/
theorem searchCacheKey_eq_iff_query_eq_witness :
    searchCacheKey "naruto" 1 none none 20 = searchCacheKey "bleach" 1 none none 50 ↔
      ("naruto" : String) = "bleach" :=
  searchCacheKey_eq_iff_query_eq "naruto" "bleach" 1 none none 20 50
